import Mathlib

/-!
Verification of the sheet-as-database adapter layer of the guitar practice
routine app (src/app/sheets.py), as a shallow embedding in Lean.

Records are modelled as association lists from column letters to cell strings
(Python dicts keyed by column letters).  A worksheet's data region (rows from
sheet row 2 downward) is modelled as a list of rows of cell strings; the
remote `worksheet.get` trims trailing empty rows, and trailing empty cells of
each row, exactly as the Sheets values API does.

Python's `int(float(s))` is modelled by `parseNum`, a decimal-literal parser
(optional sign, digits, optional fractional part, truncation toward zero);
exponent/underscore/whitespace forms of Python float literals are not
modelled.  Operations that can raise are modelled in `Option`, with `none`
for a raised-or-reported failure happening before any write.
-/

namespace GPR

/-- Record: a Python dict keyed by column letters, modelled as an
association list. -/
abbrev Rcd := List (Char × String)

/-- Dict read with default empty string (`record.get(col, '')`, and a stand-in
for `record[col]` whose KeyError failure coincides with the parse failure of
the empty string downstream). -/
def Rcd.get (r : Rcd) (c : Char) : String :=
  ((r.find? (fun p => p.1 == c)).map Prod.snd).getD ""

/-- Dict read returning `none` for a missing key (`record.get(col)`). -/
def Rcd.find (r : Rcd) (c : Char) : Option String :=
  (r.find? (fun p => p.1 == c)).map Prod.snd

/-- Dict write (`record[col] = v`): replace the binding if the key is
present, else append it. -/
def Rcd.set (r : Rcd) (c : Char) (v : String) : Rcd :=
  if r.any (fun p => p.1 == c) then
    r.map (fun p => if p.1 == c then (c, v) else p)
  else r ++ [(c, v)]

/-- Worksheet kind, determining the fixed column schema
(sheets.py: ITEMS_COLUMNS, ROUTINE_COLUMNS, ROUTINES_COLUMNS,
CHORDCHARTS_COLUMNS). -/
inductive Kind | items | routineItem | routinesIndex | chordChart
deriving DecidableEq

/-- Number of schema columns per worksheet kind (sheets.py lines 60-63). -/
def Kind.numCols : Kind → Nat
  | .items => 8
  | .routineItem => 4
  | .routinesIndex => 4
  | .chordChart => 6

/-- Column letter of a zero-based column index (`chr(ord('A') + i)`). -/
def letterOf (i : Nat) : Char := Char.ofNat (65 + i)

/-- The schema's column letters for a worksheet kind. -/
def Kind.letters (k : Kind) : List Char := (List.range k.numCols).map letterOf

/-- Worksheet data region (rows from sheet row 2 downward); each row is a
list of cell display strings. -/
abbrev Grid := List (List String)

/-- Drop trailing empty cells of one row, as the values API omits them in a
`worksheet.get` response. -/
def trimCells (row : List String) : List String :=
  (row.reverse.dropWhile (fun s => s == "")).reverse

/-- Drop trailing all-empty rows, as the values API omits them. -/
def trimRows (g : List (List String)) : List (List String) :=
  (g.reverse.dropWhile List.isEmpty).reverse

/-- Model of `worksheet.get('A2:<lastcol>')`: the data region restricted to
the first `n` columns, with trailing empty cells and rows trimmed. -/
def wsGet (grid : Grid) (n : Nat) : List (List String) :=
  trimRows (grid.map (fun row => trimCells (row.take n)))

/-- sheet_to_records (sheets.py lines 125-176): read the range
`A2:<lastcol>`, pad each returned row with empty strings to the schema
width, and build one record per row keyed by column letters. -/
def sheet_to_records (grid : Grid) (k : Kind) : List Rcd :=
  (wsGet grid k.numCols).map (fun row =>
    (List.range k.numCols).map (fun i => (letterOf i, row.getD i "")))

/-- Serialisation of one record to a row of schema width
(`record.get(col, '')` per column letter). -/
def rowOf (k : Kind) (r : Rcd) : List String :=
  k.letters.map (fun c => Rcd.get r c)

/-- Model of `worksheet.update('A2:<colend><clearEnd>', newRows)`: rows of the
data region covered by `newRows` are overwritten in columns `A..` (cells of a
covered row beyond the written width survive); rows beyond `newRows` are left
as they were. -/
def setRegion (grid : Grid) (newRows : List (List String)) (n : Nat) : Grid :=
  (List.range (max grid.length newRows.length)).map (fun i =>
    match newRows[i]? with
    | some nr => nr ++ (grid.getD i []).drop n
    | none => grid.getD i [])

/-- records_to_sheet (sheets.py lines 178-220): empty record lists return
True without writing; otherwise each record is serialised to a row of schema
width and the range `A2:<colend><clearEnd>` is overwritten in one write,
where `clearEnd = max(len(rows) + 51, 100)`, the rows beyond the data being
blanks that erase stale rows of prior larger writes. -/
def records_to_sheet (grid : Grid) (records : List Rcd) (k : Kind) : Grid × Bool :=
  if records.isEmpty then (grid, true)
  else
    let n := k.numCols
    let rows := records.map (rowOf k)
    let dataEnd := rows.length + 1
    let clearEnd := max (dataEnd + 50) 100
    let extended := rows ++ List.replicate (clearEnd - dataEnd) (List.replicate n "")
    (setRegion grid extended n, true)

/-- A record as rehydrated by a read-back: every schema column letter bound,
missing keys as the empty string. -/
def normalize (k : Kind) (r : Rcd) : Rcd :=
  (List.range k.numCols).map (fun i => (letterOf i, Rcd.get r (letterOf i)))

/-- Numeric value of a digit character. -/
def digitVal (c : Char) : Nat := c.toNat - 48

/-- Value of a list of digit characters read left to right. -/
def parseDigits (l : List Char) : Nat := l.foldl (fun a c => 10 * a + digitVal c) 0

/-- Unsigned part of a Python decimal float literal, truncated toward zero:
digits, optionally followed by a dot and fractional digits (either side may
be empty, not both). -/
def parseUnsigned (l : List Char) : Option Nat :=
  let ip := l.takeWhile (fun c => c != '.')
  match l.dropWhile (fun c => c != '.') with
  | [] =>
    if ip.isEmpty then none
    else if ip.all Char.isDigit then some (parseDigits ip) else none
  | _ :: frac =>
    if (ip.all Char.isDigit && frac.all Char.isDigit) && !(ip.isEmpty && frac.isEmpty) then
      some (parseDigits ip)
    else none

/-- Model of Python `int(float(s))` on decimal literals: optional sign, then
an unsigned decimal literal, truncating toward zero; `none` models the raised
ValueError on anything else (exponent, underscore and inf/nan forms of the
Python float grammar are not modelled). -/
def parseNum (s : String) : Option Int :=
  match s.data with
  | [] => none
  | c :: cs =>
    if c = '-' then (parseUnsigned cs).map (fun n => -(Int.ofNat n))
    else if c = '+' then (parseUnsigned cs).map Int.ofNat
    else (parseUnsigned (c :: cs)).map Int.ofNat

theorem isDigit_ne_dot {c : Char} (h : c.isDigit = true) : (c != '.') = true := by
  rw [bne_iff_ne]
  intro he
  subst he
  simp [Char.isDigit] at h

theorem toDigitsCore_append (b : Nat) :
    ∀ (f n : Nat) (ds : List Char),
      Nat.toDigitsCore b f n ds = Nat.toDigitsCore b f n [] ++ ds := by
  intro f
  induction f with
  | zero => intro n ds; simp [Nat.toDigitsCore]
  | succ f ih =>
    intro n ds
    simp only [Nat.toDigitsCore]
    by_cases h : n / b = 0
    · simp [h]
    · simp only [h, if_neg, ite_false]
      rw [ih (n / b) (Nat.digitChar (n % b) :: ds), ih (n / b) [Nat.digitChar (n % b)],
        List.append_assoc]
      rfl

theorem digitVal_digitChar {d : Nat} (h : d < 10) :
    digitVal (Nat.digitChar d) = d := by
  interval_cases d <;> rfl

theorem isDigit_digitChar {d : Nat} (h : d < 10) :
    (Nat.digitChar d).isDigit = true := by
  interval_cases d <;> rfl

theorem parseDigits_toDigitsCore :
    ∀ (f n : Nat), n < f → parseDigits (Nat.toDigitsCore 10 f n []) = n := by
  intro f
  induction f with
  | zero => intro n h; omega
  | succ f ih =>
    intro n hn
    simp only [Nat.toDigitsCore]
    by_cases h : n / 10 = 0
    · have hlt : n < 10 := by omega
      have hmod : n % 10 = n := Nat.mod_eq_of_lt hlt
      simp [h, parseDigits, hmod, digitVal_digitChar hlt]
    · simp only [h, ite_false]
      rw [toDigitsCore_append]
      have hne : n ≠ 0 := by intro h0; subst h0; simp at h
      have hdivlt : n / 10 < n := Nat.div_lt_self (Nat.pos_of_ne_zero hne) (by norm_num)
      have := ih (n / 10) (by omega)
      simp only [parseDigits] at this ⊢
      rw [List.foldl_append, this]
      simp [digitVal_digitChar (Nat.mod_lt n (by norm_num))]
      omega

theorem isDigit_toDigitsCore :
    ∀ (f n : Nat), n < f → ∀ c ∈ Nat.toDigitsCore 10 f n [], c.isDigit = true := by
  intro f
  induction f with
  | zero => intro n h; omega
  | succ f ih =>
    intro n hn c hc
    simp only [Nat.toDigitsCore] at hc
    by_cases h : n / 10 = 0
    · simp only [h, ite_true, List.mem_singleton] at hc
      subst hc
      exact isDigit_digitChar (Nat.mod_lt n (by norm_num))
    · simp only [h, ite_false] at hc
      rw [toDigitsCore_append] at hc
      rcases List.mem_append.mp hc with h1 | h2
      · have hne : n ≠ 0 := by intro h0; subst h0; simp at h
        have hdivlt : n / 10 < n := Nat.div_lt_self (Nat.pos_of_ne_zero hne) (by norm_num)
        exact ih (n / 10) (by omega) c h1
      · simp only [List.mem_singleton] at h2
        subst h2
        exact isDigit_digitChar (Nat.mod_lt n (by norm_num))

theorem toDigitsCore_ne_nil :
    ∀ (f n : Nat), n < f → Nat.toDigitsCore 10 f n [] ≠ [] := by
  intro f
  induction f with
  | zero => intro n h; omega
  | succ f _ =>
    intro n _
    simp only [Nat.toDigitsCore]
    by_cases h : n / 10 = 0
    · simp [h]
    · simp only [h, ite_false]
      rw [toDigitsCore_append]
      simp

theorem natRepr_data (n : Nat) : (Nat.repr n).data = Nat.toDigits 10 n := rfl

theorem parseUnsigned_of_digits (l : List Char) (hne : l ≠ [])
    (hd : ∀ c ∈ l, c.isDigit = true) : parseUnsigned l = some (parseDigits l) := by
  have htake : l.takeWhile (fun c => c != '.') = l := by
    rw [List.takeWhile_eq_self_iff]
    intro c hc
    exact isDigit_ne_dot (hd c hc)
  have hdrop : l.dropWhile (fun c => c != '.') = [] := by
    rw [List.dropWhile_eq_nil_iff]
    intro c hc
    exact isDigit_ne_dot (hd c hc)
  simp only [parseUnsigned, htake, hdrop]
  have h1 : l.isEmpty = false := by
    cases l with
    | nil => exact absurd rfl hne
    | cons a as => rfl
  have h2 : l.all Char.isDigit = true := List.all_eq_true.mpr hd
  simp [h1, h2]

theorem parseNum_natRepr (n : Nat) : parseNum (Nat.repr n) = some (n : Int) := by
  have hne : Nat.toDigits 10 n ≠ [] := toDigitsCore_ne_nil (n + 1) n (Nat.lt_succ_self n)
  have hd : ∀ c ∈ Nat.toDigits 10 n, c.isDigit = true :=
    isDigit_toDigitsCore (n + 1) n (Nat.lt_succ_self n)
  have hval : parseDigits (Nat.toDigits 10 n) = n :=
    parseDigits_toDigitsCore (n + 1) n (Nat.lt_succ_self n)
  obtain ⟨c, cs, hcons⟩ := List.exists_cons_of_ne_nil hne
  have hcd : c.isDigit = true := hd c (by rw [hcons]; exact List.mem_cons_self c cs)
  have hcm : c ≠ '-' := by
    intro he; subst he; simp [Char.isDigit] at hcd
  have hcp : c ≠ '+' := by
    intro he; subst he; simp [Char.isDigit] at hcd
  simp only [parseNum, natRepr_data, hcons, if_neg hcm, if_neg hcp]
  rw [← hcons, parseUnsigned_of_digits _ hne hd, hval]
  rfl

theorem parseNum_intToString (i : Int) : parseNum (toString i) = some i := by
  cases i with
  | ofNat n =>
    have : toString (Int.ofNat n) = Nat.repr n := rfl
    rw [this, parseNum_natRepr]
    rfl
  | negSucc m =>
    have hrepr : toString (Int.negSucc m) = "-" ++ Nat.repr (m + 1) := rfl
    have hdata : (("-" ++ Nat.repr (m + 1)) : String).data = '-' :: (Nat.repr (m + 1)).data := by
      simp [String.data_append]
    have hne : Nat.toDigits 10 (m + 1) ≠ [] :=
      toDigitsCore_ne_nil (m + 2) (m + 1) (Nat.lt_succ_self _)
    have hd : ∀ c ∈ Nat.toDigits 10 (m + 1), c.isDigit = true :=
      isDigit_toDigitsCore (m + 2) (m + 1) (Nat.lt_succ_self _)
    have hval : parseDigits (Nat.toDigits 10 (m + 1)) = m + 1 :=
      parseDigits_toDigitsCore (m + 2) (m + 1) (Nat.lt_succ_self _)
    simp only [parseNum, hrepr, hdata, if_pos rfl]
    rw [natRepr_data, parseUnsigned_of_digits _ hne hd, hval]
    simp [Int.negSucc_eq]

/-- The check `name.replace('.', '').isdigit()` used by create_routine to
classify a worksheet title as numeric. -/
def numericCheck (name : String) : Bool :=
  let stripped := name.data.filter (fun c => c != '.')
  !stripped.isEmpty && stripped.all Char.isDigit

theorem numericCheck_natRepr (n : Nat) : numericCheck (Nat.repr n) = true := by
  have hne : Nat.toDigits 10 n ≠ [] := toDigitsCore_ne_nil (n + 1) n (Nat.lt_succ_self n)
  have hd : ∀ c ∈ Nat.toDigits 10 n, c.isDigit = true :=
    isDigit_toDigitsCore (n + 1) n (Nat.lt_succ_self n)
  have hfilter : (Nat.toDigits 10 n).filter (fun c => c != '.') = Nat.toDigits 10 n := by
    rw [List.filter_eq_self]
    intro c hc
    exact isDigit_ne_dot (hd c hc)
  simp only [numericCheck, natRepr_data, hfilter]
  have h1 : (Nat.toDigits 10 n).isEmpty = false := by
    cases h : Nat.toDigits 10 n with
    | nil => exact absurd h hne
    | cons a as => rfl
  simp [h1, List.all_eq_true.mpr hd]

theorem parseNum_nonneg_of_numericCheck (s : String) (h : numericCheck s = true)
    (v : Int) (hp : parseNum s = some v) : 0 ≤ v := by
  simp only [numericCheck, Bool.and_eq_true, Bool.not_eq_true'] at h
  obtain ⟨hne, hall⟩ := h
  have hdigits : ∀ c ∈ s.data.filter (fun c => c != '.'), c.isDigit = true :=
    List.all_eq_true.mp hall
  cases hdata : s.data with
  | nil => simp [parseNum, hdata] at hp
  | cons c cs =>
    have hcm : c ≠ '-' := by
      intro he
      subst he
      have : '-' ∈ s.data.filter (fun c => c != '.') := by
        rw [hdata]
        refine List.mem_filter.mpr ⟨List.mem_cons_self _ _, ?_⟩
        decide
      have := hdigits _ this
      simp [Char.isDigit] at this
    simp only [parseNum, hdata, if_neg hcm] at hp
    by_cases hcp : c = '+'
    · simp only [if_pos hcp] at hp
      rcases Option.map_eq_some'.mp hp with ⟨m, -, rfl⟩
      exact Int.ofNat_nonneg m
    · simp only [if_neg hcp] at hp
      rcases Option.map_eq_some'.mp hp with ⟨m, -, rfl⟩
      exact Int.ofNat_nonneg m

/-- Substring test on character lists (Python `phrase in s`). -/
def containsSub (p : List Char) : List Char → Bool
  | [] => p.isEmpty
  | c :: cs => p.isPrefixOf (c :: cs) || containsSub p cs

/-- Lower-cased characters of a message (Python `str(e).lower()` on ASCII
messages). -/
def lowerData (e : String) : List Char := e.data.map Char.toLower

/-- Classification of a raised error as transient (sheets.py lines 44-47):
lower-case the message and look for one of three indicator substrings. -/
def is_rate_limit (e : String) : Bool :=
  let s := lowerData e
  containsSub "quota exceeded".data s ||
  containsSub "rate_limit_exceeded".data s ||
  containsSub "too many requests".data s

/-- One pass of the retry loop of retry_on_rate_limit (sheets.py lines
36-57).  `remaining` is the number of retries still allowed
(`max_retries - attempt`), `attempt` the index of the current invocation of
the operation `f` (modelled by the outcome of each invocation in turn).
Returns the final outcome together with the list of delays slept between
attempts, in order. -/
def retry_loop (f : Nat → Except String α) (baseDelay : Nat) :
    Nat → Nat → Except String α × List Nat
  | 0, attempt =>
    match f attempt with
    | .ok a => (.ok a, [])
    | .error e => (.error e, [])
  | r + 1, attempt =>
    match f attempt with
    | .ok a => (.ok a, [])
    | .error e =>
      if is_rate_limit e then
        let p := retry_loop f baseDelay r (attempt + 1)
        (p.1, baseDelay * 2 ^ attempt :: p.2)
      else (.error e, [])

/-- retry_on_rate_limit (sheets.py lines 36-57): up to `maxRetries + 1`
invocations, sleeping `baseDelay * 2 ^ attempt` after a transient failure
with retries remaining, re-raising otherwise. -/
def retry_on_rate_limit (f : Nat → Except String α) (maxRetries baseDelay : Nat) :
    Except String α × List Nat :=
  retry_loop f baseDelay maxRetries 0

theorem delays_cons (base attempt r : Nat) :
    (List.range (r + 1)).map (fun i => base * 2 ^ (attempt + i)) =
      base * 2 ^ attempt :: (List.range r).map (fun i => base * 2 ^ (attempt + 1 + i)) := by
  rw [List.range_succ_eq_map]
  simp only [List.map_cons, List.map_map, Nat.add_zero, List.cons.injEq, true_and]
  apply List.map_congr_left
  intro i _
  simp only [Function.comp_apply, Nat.succ_eq_add_one]
  congr 2
  omega

theorem retry_loop_all_ratelimited (f : Nat → Except String α) (base : Nat) (a : α) :
    ∀ (r attempt : Nat),
      (∀ i, i < r → ∃ e, f (attempt + i) = .error e ∧ is_rate_limit e = true) →
      f (attempt + r) = .ok a →
      retry_loop f base r attempt =
        (.ok a, (List.range r).map (fun i => base * 2 ^ (attempt + i))) := by
  intro r
  induction r with
  | zero =>
    intro attempt _ hok
    have hok0 : f attempt = .ok a := by simpa using hok
    simp [retry_loop, hok0]
  | succ r ih =>
    intro attempt h hok
    obtain ⟨e, he, hrl⟩ := h 0 (Nat.succ_pos r)
    have he0 : f attempt = .error e := by simpa using he
    have hok1 : f (attempt + 1 + r) = .ok a := by
      rw [show attempt + 1 + r = attempt + (r + 1) by omega]
      exact hok
    have hfail1 : ∀ i, i < r → ∃ e, f (attempt + 1 + i) = .error e ∧ is_rate_limit e = true := by
      intro i hi
      have := h (i + 1) (by omega)
      rwa [show attempt + (i + 1) = attempt + 1 + i by omega] at this
    have ih1 := ih (attempt + 1) hfail1 hok1
    simp only [retry_loop, he0, hrl, if_true, ih1]
    rw [delays_cons]

/-- C2: if each of the first maxRetries invocations of the operation raises
a rate-limit-flavoured error and invocation maxRetries + 1 succeeds, then
retry_on_rate_limit returns the successful result without raising, and the
delays slept between consecutive attempts are baseDelay * 2 ^ 0, ...,
baseDelay * 2 ^ (maxRetries - 1), strictly increasing by doubling. -/
theorem C2_retry_boundary (f : Nat → Except String Nat) (maxRetries baseDelay : Nat) (a : Nat)
    (hfail : ∀ i, i < maxRetries → ∃ e, f i = .error e ∧ is_rate_limit e = true)
    (hok : f maxRetries = .ok a) :
    retry_on_rate_limit f maxRetries baseDelay =
      (.ok a, (List.range maxRetries).map (fun i => baseDelay * 2 ^ i)) ∧
    (0 < baseDelay →
      List.Chain' (fun x y => x < y)
        ((List.range maxRetries).map (fun i => baseDelay * 2 ^ i))) := by
  constructor
  · have := retry_loop_all_ratelimited f baseDelay a maxRetries 0
      (by intro i hi; simpa using hfail i hi) (by simpa using hok)
    simpa [retry_on_rate_limit] using this
  · intro hb
    rw [List.chain'_map]
    cases maxRetries with
    | zero => simp
    | succ m =>
      rw [List.chain'_range_succ]
      intro i _
      have hpow : (2 : Nat) ^ i < 2 ^ (i + 1) :=
        Nat.pow_lt_pow_right (by norm_num) (Nat.lt_succ_self i)
      exact (mul_lt_mul_left hb).mpr hpow

/-- Witness for C2 at a concrete operation failing twice with a quota error
and succeeding on the third invocation. -/
theorem C2_retry_boundary_witness :
    retry_on_rate_limit
      (fun i => if i < 2 then (Except.error "quota exceeded" : Except String Nat) else .ok 42)
      2 1 = (.ok 42, [1, 2]) := by
  have h := C2_retry_boundary
    (fun i => if i < 2 then (Except.error "quota exceeded" : Except String Nat) else .ok 42)
    2 1 42
    (by
      intro i hi
      exact ⟨"quota exceeded", by simp [hi], by decide⟩)
    (by norm_num)
  rw [h.1]
  rfl

/-- C4 counterexample: the code classifies only "quota exceeded",
"rate_limit_exceeded" and "too many requests" as transient; an error whose
message is exactly "service unavailable" (one of the five indicators the
claim lists) is re-raised immediately with no sleep and no retry. -/
theorem C4_counterexample :
    is_rate_limit "service unavailable" = false ∧
    is_rate_limit "internal error" = false ∧
    retry_on_rate_limit
      (fun _ => (Except.error "service unavailable" : Except String Nat)) 3 1 =
      (.error "service unavailable", []) := by
  refine ⟨by decide, by decide, ?_⟩
  rfl

theorem retry_loop_const_error (base : Nat) (e : String) (hrl : is_rate_limit e = true) :
    ∀ (r attempt : Nat),
      retry_loop (fun _ => (.error e : Except String Nat)) base r attempt =
        (.error e, (List.range r).map (fun i => base * 2 ^ (attempt + i))) := by
  intro r
  induction r with
  | zero => intro attempt; simp [retry_loop]
  | succ r ih =>
    intro attempt
    simp only [retry_loop, hrl, if_true, ih (attempt + 1)]
    rw [delays_cons]

/-- C4 amended: retry_on_rate_limit treats an error as transient exactly
when its lower-cased message contains "quota exceeded",
"rate_limit_exceeded" or "too many requests" — "service unavailable" and
"internal error" are not retried.  A matched error with retries remaining
sleeps baseDelay * 2 ^ attempt and retries (until exhausted, when it
re-raises); any unmatched error is re-raised immediately without sleeping. -/
theorem C4_amended_classification :
    (∀ (f : Nat → Except String Nat) (maxR base : Nat) (e : String),
      f 0 = .error e → is_rate_limit e = false →
      retry_on_rate_limit f maxR base = (.error e, [])) ∧
    (∀ (base r : Nat) (e : String), is_rate_limit e = true →
      retry_on_rate_limit (fun _ => (.error e : Except String Nat)) r base =
        (.error e, (List.range r).map (fun i => base * 2 ^ i))) ∧
    is_rate_limit "service unavailable" = false ∧
    is_rate_limit "internal error" = false ∧
    is_rate_limit "Quota exceeded for quota metric" = true ∧
    is_rate_limit "429 Too Many Requests" = true ∧
    is_rate_limit "RATE_LIMIT_EXCEEDED" = true := by
  refine ⟨?_, ?_, by decide, by decide, by decide, by decide, by decide⟩
  · intro f maxR base e h0 hrl
    cases maxR with
    | zero => simp [retry_on_rate_limit, retry_loop, h0]
    | succ m => simp [retry_on_rate_limit, retry_loop, h0, hrl]
  · intro base r e hrl
    have := retry_loop_const_error base e hrl r 0
    simpa [retry_on_rate_limit] using this

/-- Witness for the amended C4 at concrete errors: an unmatched message is
re-raised with no sleeps, a matched one is retried with doubling delays
until retries are exhausted. -/
theorem C4_amended_classification_witness :
    retry_on_rate_limit (fun _ => (Except.error "boom" : Except String Nat)) 2 1 =
      (.error "boom", []) ∧
    retry_on_rate_limit (fun _ => (Except.error "quota exceeded" : Except String Nat)) 2 1 =
      (.error "quota exceeded", [1, 2]) := by
  constructor
  · exact C4_amended_classification.1 _ 2 1 "boom" rfl (by decide)
  · have := C4_amended_classification.2.1 1 2 "quota exceeded" (by decide)
    rw [this]
    rfl

theorem trimCells_eq_nil_iff (row : List String) :
    trimCells row = [] ↔ ∀ x ∈ row, x = "" := by
  simp only [trimCells, List.reverse_eq_nil_iff, List.dropWhile_eq_nil_iff, List.mem_reverse,
    beq_iff_eq]

theorem trimCells_prefix_suffix (row : List String) :
    ∃ suf, row = trimCells row ++ suf ∧ ∀ x ∈ suf, x = "" := by
  refine ⟨(row.reverse.takeWhile (fun s => s == "")).reverse, ?_, ?_⟩
  · conv_lhs => rw [← List.reverse_reverse row,
      ← List.takeWhile_append_dropWhile (fun s => s == "") row.reverse]
    rw [List.reverse_append]
    rfl
  · intro x hx
    rw [List.mem_reverse] at hx
    simpa [beq_iff_eq] using List.mem_takeWhile_imp hx

theorem trimCells_getD (row : List String) (j : Nat) :
    (trimCells row).getD j "" = row.getD j "" := by
  obtain ⟨suf, hrow, hsuf⟩ := trimCells_prefix_suffix row
  by_cases h : j < (trimCells row).length
  · conv_rhs => rw [hrow]
    rw [List.getD_append _ _ _ _ h]
  · push_neg at h
    rw [List.getD_eq_default _ _ h]
    conv_rhs => rw [hrow]
    rw [List.getD_append_right _ _ _ _ h]
    by_cases h2 : j - (trimCells row).length < suf.length
    · rw [List.getD_eq_getElem _ _ h2]
      exact (hsuf _ (List.getElem_mem h2)).symm
    · push_neg at h2
      rw [List.getD_eq_default _ _ h2]

theorem trimCells_replicate_empty (n : Nat) : trimCells (List.replicate n "") = [] := by
  rw [trimCells_eq_nil_iff]
  intro x hx
  exact List.eq_of_mem_replicate hx

theorem trimCells_ne_nil (row : List String) (h : ∃ x ∈ row, x ≠ "") :
    trimCells row ≠ [] := by
  rw [Ne, trimCells_eq_nil_iff]
  intro hall
  obtain ⟨x, hx, hne⟩ := h
  exact hne (hall x hx)

theorem trimRows_append_replicate (A : List (List String)) (m : Nat) :
    trimRows (A ++ List.replicate m ([] : List String)) = trimRows A := by
  unfold trimRows
  rw [List.reverse_append, List.reverse_replicate, List.dropWhile_append]
  have hdrop : List.dropWhile List.isEmpty (List.replicate m ([] : List String)) = [] := by
    rw [List.dropWhile_eq_nil_iff]
    intro x hx
    rw [List.eq_of_mem_replicate hx]
    rfl
  rw [hdrop]
  simp

theorem trimRows_eq_self (A : List (List String)) (h : ∀ r ∈ A, r ≠ []) :
    trimRows A = A := by
  unfold trimRows
  cases hA : A.reverse with
  | nil =>
    have hAnil : A = [] := List.reverse_eq_nil_iff.mp hA
    simp [hA, hAnil]
  | cons r t =>
    have hrA : r ∈ A := by
      rw [← List.mem_reverse, hA]
      exact List.mem_cons_self r t
    have hr : r.isEmpty = false := by
      cases hrr : r with
      | nil => exact absurd hrr (h r hrA)
      | cons a as => rfl
    have hdw : List.dropWhile List.isEmpty (r :: t) = r :: t := by
      rw [List.dropWhile_cons, hr]
      simp
    rw [hdw, ← hA, List.reverse_reverse]

theorem setRegion_take_trim (grid : Grid) (newRows : List (List String)) (n : Nat)
    (hlen : grid.length ≤ newRows.length)
    (hw : ∀ row ∈ newRows, row.length = n) :
    (setRegion grid newRows n).map (fun row => trimCells (row.take n)) =
      newRows.map trimCells := by
  apply List.ext_getElem
  · simp [setRegion, Nat.max_eq_right hlen]
  · intro i h1 h2
    simp only [List.length_map] at h1 h2
    simp only [List.getElem_map]
    have hi : i < newRows.length := h2
    have hreg : i < (List.range (max grid.length newRows.length)).length := by
      simp only [setRegion, List.length_map] at h1
      exact h1
    simp only [setRegion, List.getElem_map, List.getElem_range]
    rw [List.getElem?_eq_getElem hi]
    have htake : (newRows[i] ++ (grid.getD i []).drop n).take n = newRows[i] := by
      conv_lhs => rw [← hw newRows[i] (newRows.getElem_mem hi)]
      exact List.take_left _ _
    rw [htake]

theorem rowOf_length (k : Kind) (r : Rcd) : (rowOf k r).length = k.numCols := by
  simp [rowOf, Kind.letters]

theorem rowOf_getD (k : Kind) (r : Rcd) (i : Nat) (h : i < k.numCols) :
    (rowOf k r).getD i "" = Rcd.get r (letterOf i) := by
  have hlen : i < (rowOf k r).length := by rw [rowOf_length]; exact h
  rw [List.getD_eq_getElem _ _ hlen]
  simp [rowOf, Kind.letters]

theorem wsGet_setRegion (grid : Grid) (rows : List (List String)) (n m : Nat)
    (hlen : grid.length ≤ rows.length + m)
    (hw : ∀ row ∈ rows, row.length = n)
    (hrt : ∀ row ∈ rows, trimCells row ≠ []) :
    wsGet (setRegion grid (rows ++ List.replicate m (List.replicate n "")) n) n =
      rows.map trimCells := by
  have hw2 : ∀ row ∈ rows ++ List.replicate m (List.replicate n ""), row.length = n := by
    intro row hrow
    rcases List.mem_append.mp hrow with hmem | hmem
    · exact hw row hmem
    · rw [List.eq_of_mem_replicate hmem]; simp
  have hlen2 : grid.length ≤ (rows ++ List.replicate m (List.replicate n "")).length := by
    simp only [List.length_append, List.length_replicate]
    omega
  unfold wsGet
  rw [setRegion_take_trim grid _ n hlen2 hw2, List.map_append]
  have hmap2 : (List.replicate m (List.replicate n "")).map trimCells =
      List.replicate m ([] : List String) := by
    rw [List.map_replicate, trimCells_replicate_empty]
  rw [hmap2, trimRows_append_replicate]
  apply trimRows_eq_self
  intro r hr
  obtain ⟨row, hrow, hrfl⟩ := List.mem_map.mp hr
  rw [← hrfl]
  exact hrt row hrow

/-- C1 amended: the codec round trip recovers the written records (each
rehydrated with every schema column present, missing keys as the empty
string) provided the record list is non-empty, every record has at least one
non-empty schema cell, and the worksheet's pre-existing data region does not
extend past the blanked range (row max(len(R) + 51, 100)); the
counterexample shows that a worksheet with stale data past the blanked range
breaks the round trip as claimed. -/
theorem C1_roundtrip_amended (k : Kind) (grid : Grid) (R : List Rcd)
    (hne : R ≠ [])
    (hwf : ∀ r ∈ R, ∃ c ∈ k.letters, Rcd.get r c ≠ "")
    (hh : grid.length ≤ max (R.length + 51) 100 - 1) :
    sheet_to_records (records_to_sheet grid R k).1 k = R.map (normalize k) := by
  have hRne : R.isEmpty = false := by
    cases R with
    | nil => exact absurd rfl hne
    | cons a as => rfl
  rw [records_to_sheet]
  simp only [hRne, Bool.false_eq_true, if_false]
  rw [sheet_to_records]
  have hlenmap : (R.map (rowOf k)).length = R.length := List.length_map _ _
  have hw : ∀ row ∈ R.map (rowOf k), row.length = k.numCols := by
    intro row hrow
    obtain ⟨r, _, hrfl⟩ := List.mem_map.mp hrow
    rw [← hrfl, rowOf_length]
  have hrt : ∀ row ∈ R.map (rowOf k), trimCells row ≠ [] := by
    intro row hrow
    obtain ⟨r, hr, hrfl⟩ := List.mem_map.mp hrow
    obtain ⟨c, hc, hcne⟩ := hwf r hr
    apply trimCells_ne_nil
    refine ⟨Rcd.get r c, ?_, hcne⟩
    rw [← hrfl]
    exact List.mem_map.mpr ⟨c, hc, rfl⟩
  have hlen : grid.length ≤ (R.map (rowOf k)).length +
      (max ((R.map (rowOf k)).length + 1 + 50) 100 - ((R.map (rowOf k)).length + 1)) := by
    rw [hlenmap]
    omega
  rw [wsGet_setRegion grid (R.map (rowOf k)) k.numCols _ hlen hw hrt]
  rw [List.map_map, List.map_map]
  apply List.map_congr_left
  intro r _
  simp only [Function.comp_apply]
  unfold normalize
  apply List.map_congr_left
  intro i hi
  rw [List.mem_range] at hi
  rw [trimCells_getD, rowOf_getD k r i hi]

/-- C1 counterexample: on a worksheet whose data region already has 100 rows
(the last one non-empty), writing a single record and reading the sheet back
does not return that record alone — the stale row beyond the blanked range
survives, so the round trip fails as stated. -/
theorem C1_counterexample :
    sheet_to_records
      (records_to_sheet (List.replicate 99 ([] : List String) ++ [["X"]])
        [[('A', "1")]] .routineItem).1 .routineItem ≠
      [[('A', "1")]].map (normalize .routineItem) := by
  decide

/-- Witness for the amended C1 on an empty worksheet and a one-record list. -/
theorem C1_roundtrip_amended_witness :
    sheet_to_records (records_to_sheet [] [[('A', "1")]] .routineItem).1 .routineItem =
      [[('A', "1")]].map (normalize .routineItem) :=
  C1_roundtrip_amended .routineItem [] [[('A', "1")]] (by decide) (by decide) (by decide)

theorem find_map_set (l : Rcd) (c : Char) (v : String)
    (h : l.any (fun p => p.1 == c) = true) :
    (l.map (fun p => if p.1 == c then (c, v) else p)).find? (fun p => p.1 == c) =
      some (c, v) := by
  induction l with
  | nil => simp at h
  | cons p ps ih =>
    simp only [List.map_cons]
    by_cases hp : (p.1 == c) = true
    · simp only [if_pos hp, List.find?, beq_self_eq_true]
    · have hps : ps.any (fun q => q.1 == c) = true := by
        simp only [List.any_cons, hp, Bool.false_or] at h
        exact h
      have hp' : (p.1 == c) = false := by simpa using hp
      rw [if_neg hp]
      simp only [List.find?, hp']
      exact ih hps

theorem find_append_single (c c' : Char) (v : String) :
    ∀ l : Rcd, (∀ x ∈ l, (x.1 == c') = false) →
      (l ++ [(c, v)]).find? (fun p => p.1 == c') =
        if c == c' then some (c, v) else none := by
  intro l
  induction l with
  | nil =>
    intro _
    rw [List.nil_append]
    by_cases hc : (c == c') = true
    · rw [if_pos hc]
      have hhd : ((c, v).1 == c') = true := hc
      simp only [List.find?, hhd]
    · rw [if_neg hc]
      have hhd : ((c, v).1 == c') = false := by simpa using hc
      simp only [List.find?, hhd]
  | cons p ps ih =>
    intro hl
    have hp' : (p.1 == c') = false := hl p (List.mem_cons_self p ps)
    rw [List.cons_append]
    simp only [List.find?, hp']
    exact ih (fun x hx => hl x (List.mem_cons_of_mem p hx))

theorem Rcd.get_set_same (r : Rcd) (c : Char) (v : String) :
    Rcd.get (Rcd.set r c v) c = v := by
  unfold Rcd.get Rcd.set
  by_cases h : r.any (fun p => p.1 == c) = true
  · rw [if_pos h, find_map_set r c v h]
    rfl
  · rw [if_neg h]
    have hall : ∀ x ∈ r, (x.1 == c) = false := by
      intro x hx
      by_contra hx2
      exact h (List.any_eq_true.mpr ⟨x, hx, by simpa using hx2⟩)
    rw [find_append_single c c v r hall, if_pos (by simp)]
    rfl

theorem Rcd.get_set_other (r : Rcd) (c c' : Char) (v : String) (hne : c' ≠ c) :
    Rcd.get (Rcd.set r c v) c' = Rcd.get r c' := by
  have hcc : (c == c') = false := by
    rw [beq_eq_false_iff_ne]
    exact fun he => hne he.symm
  unfold Rcd.get Rcd.set
  by_cases h : r.any (fun p => p.1 == c) = true
  · rw [if_pos h]
    have hfind : ∀ l : Rcd,
        (l.map (fun p => if p.1 == c then (c, v) else p)).find? (fun p => p.1 == c') =
          l.find? (fun p => p.1 == c') := by
      intro l
      induction l with
      | nil => rfl
      | cons p ps ih =>
        simp only [List.map_cons]
        by_cases hp : (p.1 == c) = true
        · have hq' : (p.1 == c') = false := by rw [eq_of_beq hp]; exact hcc
          simp only [if_pos hp, List.find?, hcc, hq']
          exact ih
        · by_cases hq : (p.1 == c') = true
          · simp only [if_neg hp, List.find?, hq]
          · have hq' : (p.1 == c') = false := by simpa using hq
            simp only [if_neg hp, List.find?, hq']
            exact ih
    rw [hfind]
  · rw [if_neg h]
    have hfind : ∀ l : Rcd,
        (l ++ [(c, v)]).find? (fun p => p.1 == c') = l.find? (fun p => p.1 == c') := by
      intro l
      induction l with
      | nil =>
        rw [List.nil_append]
        simp only [List.find?, hcc]
      | cons p ps ih =>
        rw [List.cons_append]
        by_cases hq : (p.1 == c') = true
        · simp only [List.find?, hq]
        · have hq' : (p.1 == c') = false := by simpa using hq
          simp only [List.find?, hq']
          exact ih
    rw [hfind]

/-- Scan for the first record whose parsed column A equals the requested ID
(delete_item line 464).  The scan stops at the first match; `none` models an
unparseable ID raising before a match is found, `some none` a completed scan
with no match. -/
def findById : List Rcd → Int → Option (Option Rcd)
  | [], _ => some none
  | r :: rs, itemId =>
    match parseNum (Rcd.get r 'A') with
    | none => none
    | some v => if v = itemId then some (some r) else findById rs itemId

/-- The comprehension removing every record whose parsed ID equals the
deleted one (delete_item line 474), evaluated left to right and raising
(`none`) on the first unparseable ID. -/
def filterParse : List Rcd → Int → Option (List Rcd)
  | [], _ => some []
  | r :: rs, itemId =>
    match parseNum (Rcd.get r 'A') with
    | none => none
    | some v =>
      (filterParse rs itemId).map (fun rest => if v = itemId then rest else r :: rest)

/-- The loop decrementing column G of every remaining record whose parsed
order exceeds the deleted record's order (delete_item lines 475-477). -/
def adjustOrders : List Rcd → Int → Option (List Rcd)
  | [], _ => some []
  | r :: rs, k =>
    match parseNum (Rcd.get r 'G') with
    | none => none
    | some g =>
      (adjustOrders rs k).map
        (fun rest => (if k < g then Rcd.set r 'G' (toString (g - 1)) else r) :: rest)

/-- delete_item (sheets.py lines 452-487) on the decoded Items records:
locate by parsed ID, remove every record with that ID, decrement the order
of each remaining record whose order exceeds the deleted record's order, and
return the record list handed to records_to_sheet.  `none` models returning
False (ID not found, or a raised error) before any write. -/
def delete_item (records : List Rcd) (itemId : Int) : Option (List Rcd) :=
  match findById records itemId with
  | none => none
  | some none => none
  | some (some deleted) =>
    match parseNum (Rcd.get deleted 'G') with
    | none => none
    | some k =>
      match filterParse records itemId with
      | none => none
      | some remaining => adjustOrders remaining k

/-- remove_from_routine (sheets.py lines 854-888) on one routine's decoded
records: locate the row whose column A equals the routine entry ID (string
comparison), drop every row with that ID, then renumber the survivors
sequentially by row position, writing `str(i)` into column C.  `none` models
returning False when the entry is absent. -/
def remove_from_routine (records : List Rcd) (entryId : String) : Option (List Rcd) :=
  match records.find? (fun r => Rcd.get r 'A' == entryId) with
  | none => none
  | some _ =>
    some (((records.filter (fun r => Rcd.get r 'A' != entryId)).enum).map
      (fun p => Rcd.set p.2 'C' (toString p.1)))

theorem adjustOrders_spec (k : Int) :
    ∀ (l out : List Rcd), adjustOrders l k = some out →
      out.length = l.length ∧
      ∀ i (h1 : i < l.length) (h2 : i < out.length),
        (∀ g, parseNum (Rcd.get l[i] 'G') = some g →
          parseNum (Rcd.get out[i] 'G') = some (if k < g then g - 1 else g)) ∧
        (∀ c, c ≠ 'G' → Rcd.get out[i] c = Rcd.get l[i] c) := by
  intro l
  induction l with
  | nil =>
    intro out h
    simp only [adjustOrders, Option.some.injEq] at h
    subst h
    exact ⟨rfl, fun i h1 _ => absurd h1 (Nat.not_lt_zero i)⟩
  | cons r rs ih =>
    intro out h
    cases hg : parseNum (Rcd.get r 'G') with
    | none => simp [adjustOrders, hg] at h
    | some g =>
      simp only [adjustOrders, hg] at h
      obtain ⟨rest, hrest, hout⟩ := Option.map_eq_some'.mp h
      obtain ⟨hlen, hpt⟩ := ih rest hrest
      subst hout
      refine ⟨by simp [hlen], ?_⟩
      intro i h1 h2
      cases i with
      | zero =>
        constructor
        · intro g' hg'
          rw [List.getElem_cons_zero] at hg'
          rw [hg] at hg'
          obtain rfl : g = g' := Option.some.inj hg'
          rw [List.getElem_cons_zero]
          by_cases hk : k < g
          · rw [if_pos hk, if_pos hk, Rcd.get_set_same, parseNum_intToString]
          · rw [if_neg hk, if_neg hk]
            exact hg
        · intro c hc
          rw [List.getElem_cons_zero, List.getElem_cons_zero]
          by_cases hk : k < g
          · rw [if_pos hk, Rcd.get_set_other r 'G' c _ hc]
          · rw [if_neg hk]
      | succ j =>
        have h1' : j < rs.length := by simpa using h1
        have h2' : j < rest.length := by simpa using h2
        have hj := hpt j h1' h2'
        constructor
        · intro g' hg'
          rw [List.getElem_cons_succ] at hg'
          rw [List.getElem_cons_succ]
          exact hj.1 g' hg'
        · intro c hc
          rw [List.getElem_cons_succ, List.getElem_cons_succ]
          exact hj.2 c hc

/-- The `chart.get('F', 0)` read followed by `int(float(...))`: a missing key
yields 0, an unparseable string raises. -/
def getF0 (r : Rcd) : Option Int :=
  match Rcd.find r 'F' with
  | none => some 0
  | some v => parseNum v

/-- The loop of delete_chord_chart (sheets.py lines 1067-1071): decrement
column F of every remaining chart in the deleted chart's ItemID scope whose
order exceeds the deleted order; charts of other items are not touched and
their order cells are not parsed. -/
def adjustScope : List Rcd → Option String → Int → Option (List Rcd)
  | [], _, _ => some []
  | r :: rs, b, k =>
    if Rcd.find r 'B' == b then
      match getF0 r with
      | none => none
      | some o =>
        (adjustScope rs b k).map
          (fun rest => (if k < o then Rcd.set r 'F' (toString (o - 1)) else r) :: rest)
    else (adjustScope rs b k).map (fun rest => r :: rest)

/-- delete_chord_chart (sheets.py lines 1047-1086) on the decoded
ChordCharts records: locate the chart by string-compared ID — raising
(`none`) before any write when absent — then remove it and compact per-item
orders. -/
def delete_chord_chart (records : List Rcd) (chordId : String) : Option (List Rcd) :=
  match records.find? (fun r => Rcd.find r 'A' == some chordId) with
  | none => none
  | some chart =>
    match getF0 chart with
    | none => none
    | some delOrder =>
      adjustScope (records.filter (fun r => Rcd.find r 'A' != some chordId))
        (Rcd.find chart 'B') delOrder

theorem findById_no_match (records : List Rcd) (itemId : Int)
    (h : ∀ r ∈ records, parseNum (Rcd.get r 'A') ≠ some itemId) :
    findById records itemId = some none ∨ findById records itemId = none := by
  induction records with
  | nil => left; rfl
  | cons r rs ih =>
    cases hp : parseNum (Rcd.get r 'A') with
    | none => right; simp [findById, hp]
    | some v =>
      have hv : ¬ v = itemId := by
        intro he
        exact h r (List.mem_cons_self r rs) (by rw [hp, he])
      have hstep : findById (r :: rs) itemId = findById rs itemId := by
        simp [findById, hp, hv]
      rw [hstep]
      exact ih (fun x hx => h x (List.mem_cons_of_mem r hx))

/-- Items example of the claim: IDs 10..13 at orders 0..3; deleting ID 11
(order 1) must leave IDs 10, 12, 13 at orders 0, 1, 2. -/
def exItems : List Rcd :=
  [[('A', "10"), ('G', "0")], [('A', "11"), ('G', "1")],
   [('A', "12"), ('G', "2")], [('A', "13"), ('G', "3")]]

/-- Expected persisted Items records after deleting ID 11. -/
def exItemsAfter : List Rcd :=
  [[('A', "10"), ('G', "0")], [('A', "12"), ('G', "1")], [('A', "13"), ('G', "2")]]

/-- Survivors of exItems after removing ID 11, before order compaction. -/
def exSurvivors : List Rcd :=
  [[('A', "10"), ('G', "0")], [('A', "12"), ('G', "2")], [('A', "13"), ('G', "3")]]

/-- C3 amended: delete_item follows the claimed compaction rule — each
surviving record with parsed order above the deleted order k is decremented
by exactly one and all others (order below or equal to k) keep their order —
and the claim's concrete Items example holds.  remove_from_routine, however,
does not decrement orders above k: it renumbers the surviving rows
sequentially by row position (column C of the i-th surviving row becomes
str(i)), which agrees with the decrement rule only when the rows are stored
sorted by dense zero-based orders; the counterexample exhibits the
difference. -/
theorem C3_deletion_compaction_amended :
    (∀ (records : List Rcd) (itemId : Int) (out survivors : List Rcd) (deleted : Rcd) (k : Int),
      findById records itemId = some (some deleted) →
      parseNum (Rcd.get deleted 'G') = some k →
      filterParse records itemId = some survivors →
      delete_item records itemId = some out →
      out.length = survivors.length ∧
      ∀ i (h1 : i < survivors.length) (h2 : i < out.length),
        (∀ g, parseNum (Rcd.get survivors[i] 'G') = some g →
          parseNum (Rcd.get out[i] 'G') = some (if k < g then g - 1 else g)) ∧
        (∀ c, c ≠ 'G' → Rcd.get out[i] c = Rcd.get survivors[i] c)) ∧
    (∀ (records : List Rcd) (entryId : String) (out : List Rcd),
      remove_from_routine records entryId = some out →
      out.length = (records.filter (fun r => Rcd.get r 'A' != entryId)).length ∧
      ∀ i (h1 : i < (records.filter (fun r => Rcd.get r 'A' != entryId)).length)
        (h2 : i < out.length),
        Rcd.get out[i] 'C' = toString i ∧
        (∀ c, c ≠ 'C' →
          Rcd.get out[i] c =
            Rcd.get (records.filter (fun r => Rcd.get r 'A' != entryId))[i] c)) ∧
    delete_item exItems 11 = some exItemsAfter := by
  refine ⟨?_, ?_, by decide⟩
  · intro records itemId out survivors deleted k hfind hk hfilter hdel
    simp only [delete_item, hfind, hk, hfilter] at hdel
    exact adjustOrders_spec k survivors out hdel
  · intro records entryId out hrun
    cases hf : records.find? (fun r => Rcd.get r 'A' == entryId) with
    | none => simp [remove_from_routine, hf] at hrun
    | some w =>
      simp only [remove_from_routine, hf, Option.some.injEq] at hrun
      subst hrun
      constructor
      · simp [List.enum_length]
      · intro i h1 h2
        have hie : i < (records.filter (fun r => Rcd.get r 'A' != entryId)).enum.length := by
          simpa [List.enum_length] using h1
        constructor
        · simp only [List.getElem_map, List.getElem_enum]
          exact Rcd.get_set_same _ 'C' _
        · intro c hc
          simp only [List.getElem_map, List.getElem_enum]
          exact Rcd.get_set_other _ 'C' c _ hc

/-- C3 counterexample: a routine worksheet whose rows are not sorted by
order — rows hold orders 1, 2, 0.  Removing entry 1 (order k = 1) is claimed
to leave entry 2 (order 2 > k) at order 1 and entry 3 (order 0 < k) at
order 0; the code instead renumbers by row position, producing orders 0 and
1 respectively. -/
theorem C3_counterexample :
    remove_from_routine
      [[('A', "1"), ('C', "1")], [('A', "2"), ('C', "2")], [('A', "3"), ('C', "0")]] "1" ≠
      some [[('A', "2"), ('C', "1")], [('A', "3"), ('C', "0")]] ∧
    remove_from_routine
      [[('A', "1"), ('C', "1")], [('A', "2"), ('C', "2")], [('A', "3"), ('C', "0")]] "1" =
      some [[('A', "2"), ('C', "0")], [('A', "3"), ('C', "1")]] := by
  constructor
  · decide
  · decide

/-- Witness for the amended C3: the concrete Items example through
delete_item, and the positional renumbering of remove_from_routine. -/
theorem C3_deletion_compaction_amended_witness :
    parseNum (Rcd.get (exItemsAfter.get ⟨1, by decide⟩) 'G') = some 1 ∧
    Rcd.get (([[('A', "2"), ('C', "0")], [('A', "3"), ('C', "1")]] : List Rcd).get
      ⟨0, by decide⟩) 'C' = "0" := by
  constructor
  · have h := ((C3_deletion_compaction_amended.1 exItems 11 exItemsAfter exSurvivors
      [('A', "11"), ('G', "1")] 1 (by decide) (by decide) (by decide) (by decide)).2
        1 (by decide) (by decide)).1 2 (by decide)
    simpa [List.get_eq_getElem] using h
  · have h := ((C3_deletion_compaction_amended.2.1
      [[('A', "1"), ('C', "1")], [('A', "2"), ('C', "2")], [('A', "3"), ('C', "0")]] "1"
      [[('A', "2"), ('C', "0")], [('A', "3"), ('C', "1")]] (by decide)).2
        0 (by decide) (by decide)).1
    simpa [List.get_eq_getElem] using h

/-- C5: a delete given an ID matching no record fails before any write:
delete_item returns False (here `none`, no record list is handed to
records_to_sheet) and delete_chord_chart raises its not-found ValueError
(mapped to a 404 by the route layer) — in both cases the sheet contents are
untouched. -/
theorem C5_delete_not_found :
    (∀ (records : List Rcd) (itemId : Int),
      (∀ r ∈ records, parseNum (Rcd.get r 'A') ≠ some itemId) →
      delete_item records itemId = none) ∧
    (∀ (records : List Rcd) (chordId : String),
      (∀ r ∈ records, Rcd.find r 'A' ≠ some chordId) →
      delete_chord_chart records chordId = none) := by
  constructor
  · intro records itemId h
    rcases findById_no_match records itemId h with hc | hc <;> simp [delete_item, hc]
  · intro records chordId h
    have hfind : records.find? (fun r => Rcd.find r 'A' == some chordId) = none := by
      rw [List.find?_eq_none]
      intro x hx hpx
      exact h x hx (eq_of_beq hpx)
    simp [delete_chord_chart, hfind]

/-- Witness for C5 at concrete sheets not containing the requested IDs. -/
theorem C5_delete_not_found_witness :
    delete_item [[('A', "10"), ('G', "0")]] 11 = none ∧
    delete_chord_chart [[('A', "5"), ('B', "1"), ('F', "0")]] "99" = none := by
  constructor
  · exact C5_delete_not_found.1 _ 11 (by decide)
  · exact C5_delete_not_found.2 _ "99" (by decide)

/-- update_items_order (sheets.py lines 489-511): the caller supplies the
full desired record set in its new arrangement; the repository assigns each
record the order equal to its position index in the supplied list
(`item['G'] = str(i)`), overwriting whatever order values the caller put in
column G, and writes the resulting list. -/
def update_items_order (items : List Rcd) : List Rcd :=
  (items.enum).map (fun p => Rcd.set p.2 'G' (toString p.1))

/-- The dict `{item['A']: item['C'] for item in items}` with Python's
last-binding-wins semantics for duplicate keys. -/
def newOrdersMap (items : List Rcd) : List (String × String) :=
  items.map (fun it => (Rcd.get it 'A', Rcd.get it 'C'))

/-- Dict lookup (last binding wins). -/
def dictGet (m : List (String × String)) (a : String) : Option String :=
  (m.reverse.find? (fun p => p.1 == a)).map Prod.snd

/-- update_routine_order (sheets.py lines 682-719): build the map of
routine-entry IDs to the caller-supplied new order strings and write those
values directly into column C of the matching existing records, leaving
everything else (and records the caller did not mention) unchanged; no
renumbering pass and no density validation is performed. -/
def update_routine_order (existing items : List Rcd) : List Rcd :=
  existing.map (fun r =>
    match dictGet (newOrdersMap items) (Rcd.get r 'A') with
    | some v => Rcd.set r 'C' v
    | none => r)

/-- C7 counterexample: update_items_order does not write the caller-supplied
order value into the order column — a single record supplied with order "7"
is persisted with order "0", its position index. -/
theorem C7_counterexample :
    update_items_order [[('A', "1"), ('G', "7")]] ≠ [[('A', "1"), ('G', "7")]] ∧
    update_items_order [[('A', "1"), ('G', "7")]] = [[('A', "1"), ('G', "0")]] := by
  constructor
  · decide
  · decide

/-- C7 amended: update_routine_order passes the caller-supplied order values
through unchanged (writing them into column C without renumbering and
without validating density or zero-basedness, for arbitrary supplied
strings), but update_items_order performs its own positional renumbering:
the i-th supplied record is persisted with order str(i) regardless of its
supplied column G, so the caller controls Items order only through list
arrangement. -/
theorem C7_reorder_amended :
    (∀ (items : List Rcd),
      (update_items_order items).length = items.length ∧
      ∀ i (h1 : i < items.length) (h2 : i < (update_items_order items).length),
        Rcd.get (update_items_order items)[i] 'G' = toString i ∧
        ∀ c, c ≠ 'G' →
          Rcd.get (update_items_order items)[i] c = Rcd.get items[i] c) ∧
    (∀ (existing items : List Rcd),
      (update_routine_order existing items).length = existing.length ∧
      ∀ i (h1 : i < existing.length) (h2 : i < (update_routine_order existing items).length),
        (∀ v, dictGet (newOrdersMap items) (Rcd.get existing[i] 'A') = some v →
          Rcd.get (update_routine_order existing items)[i] 'C' = v) ∧
        (dictGet (newOrdersMap items) (Rcd.get existing[i] 'A') = none →
          Rcd.get (update_routine_order existing items)[i] 'C' = Rcd.get existing[i] 'C') ∧
        ∀ c, c ≠ 'C' →
          Rcd.get (update_routine_order existing items)[i] c = Rcd.get existing[i] c) := by
  constructor
  · intro items
    constructor
    · simp [update_items_order, List.enum_length]
    · intro i h1 h2
      constructor
      · simp only [update_items_order, List.getElem_map, List.getElem_enum]
        exact Rcd.get_set_same _ 'G' _
      · intro c hc
        simp only [update_items_order, List.getElem_map, List.getElem_enum]
        exact Rcd.get_set_other _ 'G' c _ hc
  · intro existing items
    constructor
    · simp [update_routine_order]
    · intro i h1 h2
      refine ⟨?_, ?_, ?_⟩
      · intro v hv
        simp only [update_routine_order, List.getElem_map]
        rw [hv]
        exact Rcd.get_set_same _ 'C' _
      · intro hv
        simp only [update_routine_order, List.getElem_map]
        rw [hv]
      · intro c hc
        simp only [update_routine_order, List.getElem_map]
        cases hv : dictGet (newOrdersMap items) (Rcd.get existing[i] 'A') with
        | some v => exact Rcd.get_set_other _ 'C' c _ hc
        | none => rfl

/-- Witness for the amended C7: the positional renumbering of
update_items_order, and update_routine_order passing a caller-supplied
non-dense order string through unchanged. -/
theorem C7_reorder_amended_witness :
    Rcd.get ((update_items_order [[('A', "1"), ('G', "7")]]).get ⟨0, by decide⟩) 'G' = "0" ∧
    Rcd.get ((update_routine_order [[('A', "1"), ('C', "0")]]
      [[('A', "1"), ('C', "9")]]).get ⟨0, by decide⟩) 'C' = "9" := by
  constructor
  · have h := ((C7_reorder_amended.1 [[('A', "1"), ('G', "7")]]).2 0 (by decide) (by decide)).1
    simpa [List.get_eq_getElem] using h
  · have h := ((C7_reorder_amended.2 [[('A', "1"), ('C', "0")]]
      [[('A', "1"), ('C', "9")]]).2 0 (by decide) (by decide)).1 "9" (by decide)
    simpa [List.get_eq_getElem] using h

/-- Python `max(iterable, default=d)`. -/
def pymax (l : List Int) (d : Int) : Int :=
  match l with
  | [] => d
  | a :: as => as.foldl max a

theorem left_le_foldl_max : ∀ (as : List Int) (a : Int), a ≤ as.foldl max a := by
  intro as
  induction as with
  | nil => intro a; exact le_refl a
  | cons x xs ih => intro a; exact le_trans (le_max_left a x) (ih (max a x))

theorem mem_le_foldl_max : ∀ (as : List Int) (a x : Int), x ∈ as → x ≤ as.foldl max a := by
  intro as
  induction as with
  | nil => intro a x hx; simp at hx
  | cons y ys ih =>
    intro a x hx
    rcases List.mem_cons.mp hx with rfl | hx2
    · exact le_trans (le_max_right a x) (left_le_foldl_max ys (max a x))
    · exact ih (max a y) x hx2

theorem pymax_ge_mem (l : List Int) (d x : Int) (hx : x ∈ l) : x ≤ pymax l d := by
  cases l with
  | nil => simp at hx
  | cons a as =>
    rcases List.mem_cons.mp hx with rfl | hx2
    · exact left_le_foldl_max as x
    · exact mem_le_foldl_max as a x hx2

theorem foldl_max_cases : ∀ (as : List Int) (a : Int),
    as.foldl max a = a ∨ as.foldl max a ∈ as := by
  intro as
  induction as with
  | nil => intro a; left; rfl
  | cons x xs ih =>
    intro a
    rw [List.foldl_cons]
    rcases ih (max a x) with h | h
    · rcases max_choice a x with h2 | h2
      · left; rw [h, h2]
      · right; rw [h, h2]; exact List.mem_cons_self x xs
    · right; exact List.mem_cons_of_mem x h

theorem pymax_nonneg (l : List Int) (h : ∀ x ∈ l, 0 ≤ x) : 0 ≤ pymax l 0 := by
  cases l with
  | nil => exact le_refl 0
  | cons a as =>
    show 0 ≤ as.foldl max a
    rcases foldl_max_cases as a with hc | hc
    · rw [hc]; exact h a (List.mem_cons_self a as)
    · exact h _ (List.mem_cons_of_mem a hc)

/-- Option-valued map over a list, left to right, short-circuiting at the
first failure (the raise of a Python comprehension). -/
def mapOpt (f : α → Option β) : List α → Option (List β)
  | [] => some []
  | a :: as =>
    match f a with
    | none => none
    | some b => (mapOpt f as).map (b :: ·)

theorem mapOpt_mem (f : α → Option β) :
    ∀ (l : List α) (l' : List β), mapOpt f l = some l' →
      ∀ x ∈ l, ∀ y, f x = some y → y ∈ l' := by
  intro l
  induction l with
  | nil => intro l' _ x hx; simp at hx
  | cons a as ih =>
    intro l' h x hx y hy
    cases hfa : f a with
    | none => simp [mapOpt, hfa] at h
    | some b =>
      simp only [mapOpt, hfa] at h
      obtain ⟨rest, hrest, hl⟩ := Option.map_eq_some'.mp h
      subst hl
      rcases List.mem_cons.mp hx with rfl | hx2
      · rw [hfa] at hy
        obtain rfl := Option.some.inj hy
        exact List.mem_cons_self _ rest
      · exact List.mem_cons_of_mem b (ih rest hrest x hx2 y hy)

theorem mapOpt_mem_rev (f : α → Option β) :
    ∀ (l : List α) (l' : List β), mapOpt f l = some l' →
      ∀ y ∈ l', ∃ x ∈ l, f x = some y := by
  intro l
  induction l with
  | nil =>
    intro l' h y hy
    simp only [mapOpt, Option.some.injEq] at h
    subst h
    simp at hy
  | cons a as ih =>
    intro l' h y hy
    cases hfa : f a with
    | none => simp [mapOpt, hfa] at h
    | some b =>
      simp only [mapOpt, hfa] at h
      obtain ⟨rest, hrest, hl⟩ := Option.map_eq_some'.mp h
      subst hl
      rcases List.mem_cons.mp hy with rfl | hy2
      · exact ⟨a, List.mem_cons_self a as, hfa⟩
      · obtain ⟨x, hx, hfx⟩ := ih rest hrest y hy2
        exact ⟨x, List.mem_cons_of_mem a hx, hfx⟩

/-- Parse one column of every record (`[int(float(r[c])) for r in records]`). -/
def parseCol (records : List Rcd) (c : Char) : Option (List Int) :=
  mapOpt (fun r => parseNum (Rcd.get r c)) records

/-- Defaults of add_item's required_columns (sheets.py lines 355-364). -/
def itemDefault (c : Char) : String := if c = 'E' then "5" else ""

/-- The required_columns normalisation of add_item (lines 354-371): every
column A..H bound, caller values merged over defaults. -/
def normalizeItem (item : Rcd) : Rcd :=
  (List.range 8).map (fun i =>
    (letterOf i, (Rcd.find item (letterOf i)).getD (itemDefault (letterOf i))))

/-- Case-insensitive title collision test of the duplicate-title loop. -/
def titleTaken (records : List Rcd) (t : String) : Bool :=
  records.any (fun r => lowerData (Rcd.get r 'C') == lowerData t)

/-- The duplicate-title loop of add_item (lines 386-391), fuelled: candidate
titles base, "base (1)", "base (2)", ... are pairwise distinct and each
record blocks at most one of them, so fuel records.length + 1 reaches a free
title whenever the loop terminates. -/
def resolveTitleAux (records : List Rcd) (base : String) : Nat → Nat → String → String
  | 0, _, cur => cur
  | fuel + 1, count, cur =>
    if titleTaken records cur then
      resolveTitleAux records base fuel (count + 1)
        (base ++ " (" ++ toString count ++ ")")
    else cur

/-- Title resolution with the loop's initial state (count = 1, current
candidate = the supplied title). -/
def resolveTitle (records : List Rcd) (base : String) : String :=
  resolveTitleAux records base (records.length + 1) 1 base

/-- add_item (sheets.py lines 347-412) on the decoded Items records:
normalise the supplied columns over defaults, allocate the ID
max(existing IDs, default 0) + 1 into columns A and B, resolve title
collisions by suffixing, assign order max(existing orders, default -1) + 1,
and append.  `none` models the raised failure on an unparseable sheet. -/
def add_item (records : List Rcd) (item : Rcd) : Option (Rcd × List Rcd) :=
  match parseCol records 'A' with
  | none => none
  | some ids =>
    let newId := pymax ids 0 + 1
    let it1 := Rcd.set (Rcd.set (normalizeItem item) 'A' (toString newId)) 'B' (toString newId)
    let it2 := Rcd.set it1 'C' (resolveTitle records (Rcd.get it1 'C'))
    match parseCol records 'G' with
    | none => none
    | some orders =>
      let it3 := Rcd.set it2 'G' (toString (pymax orders (-1) + 1))
      some (it3, records ++ [it3])

/-- create_routine (sheets.py lines 263-331) up to its worksheet write:
reject duplicate names (case-insensitive), collect used IDs from the
Routines index and from every worksheet title passing the numeric check,
allocate max(used, default 0) + 1, compute the new order, and create the
worksheet named after the ID — which the remote store refuses (modelled
`none`) when a worksheet of that title already exists.  Returns the new
routine's ID and order. -/
def create_routine (routineName : String) (routines : List Rcd)
    (wsNames : List String) : Option (Int × Int) :=
  if routines.any (fun r => lowerData (Rcd.get r 'B') == lowerData routineName) then none
  else
    match parseCol routines 'A' with
    | none => none
    | some rids =>
      match mapOpt parseNum (wsNames.filter numericCheck) with
      | none => none
      | some tvals =>
        let newId := pymax (rids ++ tvals) 0 + 1
        match parseCol routines 'D' with
        | none => none
        | some orders =>
          if toString newId ∈ wsNames then none
          else some (newId, pymax orders (-1) + 1)

theorem intToString_nonneg (i : Int) (h : 0 ≤ i) : toString i = Nat.repr i.toNat := by
  cases i with
  | ofNat n => rfl
  | negSucc m => rw [Int.negSucc_eq] at h; omega

/-- C6: add_item allocates the new record ID (columns A and B) as
max(existing parsed IDs, default 0) + 1; create_routine allocates its ID as
one plus the maximum over the union of the Routines-index IDs and the
numeric worksheet titles, succeeds, and the new ID's string never collides
with any existing worksheet title (IDs are non-negative, as allocation
guarantees). -/
theorem C6_id_allocation :
    (∀ (records : List Rcd) (item it : Rcd) (out : List Rcd) (ids : List Int),
      parseCol records 'A' = some ids →
      add_item records item = some (it, out) →
      Rcd.get it 'A' = toString (pymax ids 0 + 1) ∧
      Rcd.get it 'B' = toString (pymax ids 0 + 1) ∧
      parseNum (Rcd.get it 'A') = some (pymax ids 0 + 1)) ∧
    (∀ (routineName : String) (routines : List Rcd) (wsNames : List String)
      (rids tvals orders : List Int),
      routines.any (fun r => lowerData (Rcd.get r 'B') == lowerData routineName) = false →
      parseCol routines 'A' = some rids →
      mapOpt parseNum (wsNames.filter numericCheck) = some tvals →
      parseCol routines 'D' = some orders →
      (∀ v ∈ rids, 0 ≤ v) →
      create_routine routineName routines wsNames =
        some (pymax (rids ++ tvals) 0 + 1, pymax orders (-1) + 1) ∧
      toString (pymax (rids ++ tvals) 0 + 1) ∉ wsNames) := by
  constructor
  · intro records item it out ids hA hadd
    simp only [add_item, hA] at hadd
    cases horders : parseCol records 'G' with
    | none => rw [horders] at hadd; exact Option.noConfusion hadd
    | some orders =>
      rw [horders] at hadd
      obtain ⟨h1, _⟩ := Prod.mk.inj (Option.some.inj hadd)
      rw [← h1]
      have hAv : Rcd.get (Rcd.set (Rcd.set (Rcd.set (Rcd.set (normalizeItem item) 'A'
          (toString (pymax ids 0 + 1))) 'B' (toString (pymax ids 0 + 1))) 'C'
          (resolveTitle records (Rcd.get (Rcd.set (Rcd.set (normalizeItem item) 'A'
            (toString (pymax ids 0 + 1))) 'B' (toString (pymax ids 0 + 1))) 'C'))) 'G'
          (toString (pymax orders (-1) + 1))) 'A' = toString (pymax ids 0 + 1) := by
        rw [Rcd.get_set_other _ 'G' 'A' _ (by decide),
          Rcd.get_set_other _ 'C' 'A' _ (by decide),
          Rcd.get_set_other _ 'B' 'A' _ (by decide),
          Rcd.get_set_same]
      refine ⟨hAv, ?_, by rw [hAv]; exact parseNum_intToString _⟩
      rw [Rcd.get_set_other _ 'G' 'B' _ (by decide),
        Rcd.get_set_other _ 'C' 'B' _ (by decide),
        Rcd.get_set_same]
  · intro routineName routines wsNames rids tvals orders hdup hA ht hD hnn
    have hnn2 : ∀ v ∈ rids ++ tvals, 0 ≤ v := by
      intro v hv
      rcases List.mem_append.mp hv with hv1 | hv2
      · exact hnn v hv1
      · obtain ⟨name, hname, hparse⟩ := mapOpt_mem_rev parseNum _ tvals ht v hv2
        exact parseNum_nonneg_of_numericCheck name (List.mem_filter.mp hname).2 v hparse
    have hpos : 0 ≤ pymax (rids ++ tvals) 0 := pymax_nonneg _ hnn2
    have hnotmem : toString (pymax (rids ++ tvals) 0 + 1) ∉ wsNames := by
      intro hmem
      have hnum : numericCheck (toString (pymax (rids ++ tvals) 0 + 1)) = true := by
        rw [intToString_nonneg _ (by omega)]
        exact numericCheck_natRepr _
      have hfil : toString (pymax (rids ++ tvals) 0 + 1) ∈ wsNames.filter numericCheck :=
        List.mem_filter.mpr ⟨hmem, hnum⟩
      have hin : pymax (rids ++ tvals) 0 + 1 ∈ tvals :=
        mapOpt_mem parseNum _ tvals ht _ hfil _ (parseNum_intToString _)
      have hle : pymax (rids ++ tvals) 0 + 1 ≤ pymax (rids ++ tvals) 0 :=
        pymax_ge_mem _ 0 _ (List.mem_append.mpr (Or.inr hin))
      omega
    refine ⟨?_, hnotmem⟩
    simp only [create_routine, hdup, Bool.false_eq_true, if_false, hA, ht, hD]
    rw [if_neg hnotmem]

/-- Example item the witness appends: title "Song" over records with IDs 1
and 2 and orders 0 and 1; the allocator must pick ID 3 and order 2. -/
def exAddRecords : List Rcd := [[('A', "1"), ('G', "0")], [('A', "2"), ('G', "1")]]

/-- The record add_item builds and appends for the witness input. -/
def exNewIt : Rcd :=
  [('A', "3"), ('B', "3"), ('C', "Song"), ('D', ""), ('E', "5"), ('F', ""),
   ('G', "2"), ('H', "")]

/-- Witness for C6: the appended item carries ID 3 = max(1, 2) + 1, and a
routine created next to worksheets titled "Routines", "1" and "2" gets ID 3
with no title collision. -/
theorem C6_id_allocation_witness :
    Rcd.get exNewIt 'A' = "3" ∧
    create_routine "Morning" [[('A', "1"), ('B', "Evening"), ('D', "0")]]
      ["Routines", "1", "2"] = some (3, 1) ∧
    "3" ∉ ["Routines", "1", "2"] := by
  have h2 := C6_id_allocation.2 "Morning" [[('A', "1"), ('B', "Evening"), ('D', "0")]]
    ["Routines", "1", "2"] [1] [1, 2] [0]
    (by decide) (by decide) (by decide) (by decide) (by decide)
  have he : pymax ([1] ++ [1, 2]) 0 + 1 = (3 : Int) := by decide
  have he2 : pymax [0] (-1) + 1 = (1 : Int) := by decide
  refine ⟨?_, ?_, ?_⟩
  · have h := (C6_id_allocation.1 exAddRecords [('C', "Song")] exNewIt
      (exAddRecords ++ [exNewIt]) [1, 2] (by decide) (by decide)).1
    rw [h]
    decide
  · rw [h2.1, he, he2]
  · have h3 := h2.2
    rw [he] at h3
    have : toString (3 : Int) = "3" := rfl
    rw [this] at h3
    exact h3

/-- Outcome of a `spread.worksheet('ActiveRoutine')` call: the worksheet
(carrying the outcome of reading its A1 cell, where `ok none` is an empty
cell), a WorksheetNotFound, or another raised error. -/
inductive WsLookup
  | found (cell : Except String (Option String))
  | notFound
  | err (msg : String)

/-- The remote-call outcomes get_active_routine can encounter, in the order
the code can reach them (sheets.py lines 525-551). -/
structure AREnv where
  spread : Except String Unit
  lookup : WsLookup
  addWs : Except String (Except String (Option String))
  updateA1 : Except String Unit
  relookup : WsLookup

/-- The sheet-resolution logic of get_active_routine (lines 530-543): use
the existing ActiveRoutine sheet; on WorksheetNotFound create it and blank
A1, falling back to a second lookup when creation fails with an
"already exists" error; re-raise anything else. -/
def resolveActiveSheet (env : AREnv) : Except String (Except String (Option String)) :=
  match env.lookup with
  | .found cell => .ok cell
  | .err m => .error m
  | .notFound =>
    match env.addWs with
    | .ok cell =>
      match env.updateA1 with
      | .ok _ => .ok cell
      | .error e => .error e
    | .error msg =>
      if containsSub "already exists".data msg.data then
        match env.relookup with
        | .found cell => .ok cell
        | .notFound => .error "WorksheetNotFound"
        | .err m => .error m
      else .error msg

/-- The body of get_active_routine's try block: obtain the spreadsheet,
resolve the ActiveRoutine sheet, read cell A1. -/
def get_active_routine_attempt (env : AREnv) : Except String (Option String) :=
  match env.spread with
  | .error e => .error e
  | .ok _ =>
    match resolveActiveSheet env with
    | .error e => .error e
    | .ok cell => cell

/-- get_active_routine (sheets.py lines 525-551): the attempt's raised
errors are caught and reported as None, and a falsy cell value (empty cell
or empty string) is also None. -/
def get_active_routine (env : AREnv) : Option String :=
  match get_active_routine_attempt env with
  | .error _ => none
  | .ok none => none
  | .ok (some s) => if s = "" then none else some s

/-- C10: get_active_routine returns None both when the ActiveRoutine cell is
empty (or holds the empty string) and when any underlying error is raised;
no exception escapes (the function is total into Option), so a Some result
is produced exactly by a successful read of a non-empty cell and a caller
cannot tell "no active routine" from a failed read. -/
theorem C10_active_none_on_empty_or_error (env : AREnv) :
    (∀ e, get_active_routine_attempt env = .error e → get_active_routine env = none) ∧
    (get_active_routine_attempt env = .ok none → get_active_routine env = none) ∧
    (get_active_routine_attempt env = .ok (some "") → get_active_routine env = none) ∧
    (∀ s, get_active_routine env = some s →
      s ≠ "" ∧ get_active_routine_attempt env = .ok (some s)) := by
  refine ⟨?_, ?_, ?_, ?_⟩
  · intro e he
    simp [get_active_routine, he]
  · intro h
    simp [get_active_routine, h]
  · intro h
    simp [get_active_routine, h]
  · intro s hs
    unfold get_active_routine at hs
    cases ha : get_active_routine_attempt env with
    | error e =>
      rw [ha] at hs
      exact Option.noConfusion hs
    | ok v =>
      rw [ha] at hs
      cases v with
      | none => exact Option.noConfusion hs
      | some t =>
        have hs2 : (if t = "" then none else some t) = some s := hs
        by_cases ht : t = ""
        · rw [if_pos ht] at hs2
          exact Option.noConfusion hs2
        · rw [if_neg ht] at hs2
          obtain rfl := Option.some.inj hs2
          exact ⟨ht, rfl⟩

/-- Witness for C10: an empty active-routine cell, and a failed credential
lookup, both read back as None. -/
theorem C10_active_none_on_empty_or_error_witness :
    get_active_routine ⟨.ok (), .found (.ok (some "")), .ok (.ok none), .ok (), .notFound⟩ =
      none ∧
    get_active_routine ⟨.error "no valid credentials", .notFound,
      .error "already exists", .ok (), .err "boom"⟩ = none := by
  constructor
  · exact (C10_active_none_on_empty_or_error _).2.2.1 rfl
  · exact (C10_active_none_on_empty_or_error _).1 "no valid credentials" rfl

theorem Rcd.find_set_same (r : Rcd) (c : Char) (v : String) :
    Rcd.find (Rcd.set r c v) c = some v := by
  unfold Rcd.find Rcd.set
  by_cases h : r.any (fun p => p.1 == c) = true
  · rw [if_pos h, find_map_set r c v h]
    rfl
  · rw [if_neg h]
    have hall : ∀ x ∈ r, (x.1 == c) = false := by
      intro x hx
      by_contra hx2
      exact h (List.any_eq_true.mpr ⟨x, hx, by simpa using hx2⟩)
    rw [find_append_single c c v r hall, if_pos (by simp)]
    rfl

theorem Rcd.find_set_other (r : Rcd) (c c' : Char) (v : String) (hne : c' ≠ c) :
    Rcd.find (Rcd.set r c v) c' = Rcd.find r c' := by
  have hcc : (c == c') = false := by
    rw [beq_eq_false_iff_ne]
    exact fun he => hne he.symm
  unfold Rcd.find Rcd.set
  by_cases h : r.any (fun p => p.1 == c) = true
  · rw [if_pos h]
    have hfind : ∀ l : Rcd,
        (l.map (fun p => if p.1 == c then (c, v) else p)).find? (fun p => p.1 == c') =
          l.find? (fun p => p.1 == c') := by
      intro l
      induction l with
      | nil => rfl
      | cons p ps ih =>
        simp only [List.map_cons]
        by_cases hp : (p.1 == c) = true
        · have hq' : (p.1 == c') = false := by rw [eq_of_beq hp]; exact hcc
          simp only [if_pos hp, List.find?, hcc, hq']
          exact ih
        · rw [if_neg hp]
          by_cases hq : (p.1 == c') = true
          · simp only [List.find?, hq]
          · have hq' : (p.1 == c') = false := by simpa using hq
            simp only [List.find?, hq']
            exact ih
    rw [hfind]
  · rw [if_neg h]
    have hfind : ∀ l : Rcd,
        (l ++ [(c, v)]).find? (fun p => p.1 == c') = l.find? (fun p => p.1 == c') := by
      intro l
      induction l with
      | nil =>
        rw [List.nil_append]
        simp only [List.find?, hcc]
      | cons p ps ih =>
        rw [List.cons_append]
        by_cases hq : (p.1 == c') = true
        · simp only [List.find?, hq]
        · have hq' : (p.1 == c') = false := by simpa using hq
          simp only [List.find?, hq']
          exact ih
    rw [hfind]

theorem mapOpt_spec (f : α → Option β) :
    ∀ (l : List α) (out : List β), mapOpt f l = some out →
      out.length = l.length ∧
      ∀ i (h1 : i < l.length) (h2 : i < out.length), f l[i] = some out[i] := by
  intro l
  induction l with
  | nil =>
    intro out h
    simp only [mapOpt, Option.some.injEq] at h
    subst h
    exact ⟨rfl, fun i h1 _ => absurd h1 (Nat.not_lt_zero i)⟩
  | cons a as ih =>
    intro out h
    cases hfa : f a with
    | none => simp [mapOpt, hfa] at h
    | some b =>
      simp only [mapOpt, hfa] at h
      obtain ⟨rest, hrest, hout⟩ := Option.map_eq_some'.mp h
      subst hout
      obtain ⟨hlen, hpt⟩ := ih rest hrest
      refine ⟨by simp [hlen], ?_⟩
      intro i h1 h2
      cases i with
      | zero => simpa using hfa
      | succ j =>
        rw [List.getElem_cons_succ, List.getElem_cons_succ]
        exact hpt j (by simpa using h1) (by simpa using h2)

theorem mapOpt_congr (f g : α → Option β) :
    ∀ (l : List α), (∀ a ∈ l, f a = g a) → mapOpt f l = mapOpt g l := by
  intro l
  induction l with
  | nil => intro _; rfl
  | cons a as ih =>
    intro h
    simp only [mapOpt, h a (List.mem_cons_self a as),
      ih (fun x hx => h x (List.mem_cons_of_mem a hx))]

theorem mapOpt_some_id : ∀ (l : List α), mapOpt (fun a => some a) l = some l := by
  intro l
  induction l with
  | nil => rfl
  | cons a as ih => simp [mapOpt, ih]

theorem mapOpt_append (f : α → Option β) :
    ∀ l₁ l₂, mapOpt f (l₁ ++ l₂) =
      (mapOpt f l₁).bind (fun xs => (mapOpt f l₂).map (fun ys => xs ++ ys)) := by
  intro l₁ l₂
  induction l₁ with
  | nil => cases h2 : mapOpt f l₂ <;> simp [mapOpt, h2]
  | cons a as ih =>
    cases hfa : f a with
    | none => simp [mapOpt, hfa]
    | some b =>
      simp only [List.cons_append, mapOpt, hfa]
      cases h1 : mapOpt f as <;> cases h2 : mapOpt f l₂ <;> simp [h1, h2, ih]

theorem mapOpt_bind (f : α → Option β) (g : β → Option γ) :
    ∀ l, mapOpt (fun a => (f a).bind g) l = (mapOpt f l).bind (mapOpt g) := by
  intro l
  induction l with
  | nil => rfl
  | cons a as ih =>
    cases hfa : f a with
    | none => simp [mapOpt, hfa]
    | some b =>
      cases hgb : g b with
      | none =>
        cases hfs : mapOpt f as with
        | none => simp [mapOpt, hfa, hgb, hfs, ih]
        | some bs => simp [mapOpt, hfa, hgb, hfs, ih]
      | some c =>
        cases hfs : mapOpt f as with
        | none => simp [mapOpt, hfa, hgb, hfs, ih]
        | some bs => simp [mapOpt, hfa, hgb, hfs, ih]

/-- A chart survives the batch delete when its ID cell is not among the
requested IDs (batch_delete_chord_charts line 1132; a missing ID cell — the
Python None — is never equal to a requested string). -/
def survives (chordIds : List String) (r : Rcd) : Bool :=
  match Rcd.find r 'A' with
  | none => true
  | some a => !(decide (a ∈ chordIds))

/-- The `items_affected` dict update (lines 1127-1129): append the order to
the entry of this ItemID, creating the entry at the end on first sight
(Python dicts preserve insertion order). -/
def addAffected (m : List (Option String × List Int)) (b : Option String) (o : Int) :
    List (Option String × List Int) :=
  if m.any (fun p => p.1 == b) then
    m.map (fun p => if p.1 == b then (p.1, p.2 ++ [o]) else p)
  else m ++ [(b, [o])]

/-- The first loop of batch_delete_chord_charts (lines 1117-1129): find the
chart of each requested ID (skipping IDs with no chart — they go to the
not_found manifest), parse its order, and accumulate charts_to_delete and
items_affected.  `none` models a raised parse failure. -/
def collectDeletes (records : List Rcd) :
    List String → List Rcd × List (Option String × List Int) →
      Option (List Rcd × List (Option String × List Int))
  | [], acc => some acc
  | cid :: rest, acc =>
    match records.find? (fun r => Rcd.find r 'A' == some cid) with
    | none => collectDeletes records rest acc
    | some chart =>
      match getF0 chart with
      | none => none
      | some o =>
        collectDeletes records rest
          (acc.1 ++ [chart], addAffected acc.2 (Rcd.find chart 'B') o)

/-- Python `list.sort()` on the deleted orders of one scope (line 1136);
ascending order on integers determines the result uniquely, so any sort
models it. -/
def sortInts (l : List Int) : List Int := List.insertionSort (fun a b => a ≤ b) l

/-- The effect of one affected scope on one record (lines 1138-1144): a
record of another ItemID is untouched (its order cell not even parsed); a
record of this scope has its order decreased by the number of deleted orders
below it, the cell being rewritten only when that number is positive. -/
def stepScope (ds : List Int) (b : Option String) (r : Rcd) : Option Rcd :=
  if Rcd.find r 'B' == b then
    match getF0 r with
    | none => none
    | some o =>
      let adj := ds.countP (fun d => decide (d < o))
      some (if 0 < adj then Rcd.set r 'F' (toString (o - (adj : Int))) else r)
  else some r

/-- The inner loop over the surviving records for one affected scope. -/
def adjustBatch (ds : List Int) (b : Option String) : List Rcd → Option (List Rcd)
  | [] => some []
  | r :: rs =>
    if Rcd.find r 'B' == b then
      match getF0 r with
      | none => none
      | some o =>
        let adj := ds.countP (fun d => decide (d < o))
        (adjustBatch ds b rs).map
          (fun rest => (if 0 < adj then Rcd.set r 'F' (toString (o - (adj : Int))) else r)
            :: rest)
    else (adjustBatch ds b rs).map (fun rest => r :: rest)

/-- The iteration over items_affected (line 1135), applying each scope's
adjustment to the whole surviving list in dict insertion order. -/
def applyScopes : List (Option String × List Int) → List Rcd → Option (List Rcd)
  | [], l => some l
  | (b, ds) :: rest, l =>
    match adjustBatch (sortInts ds) b l with
    | none => none
    | some l2 => applyScopes rest l2

/-- batch_delete_chord_charts (sheets.py lines 1088-1181), the
read-modify-write core on the decoded ChordCharts records: collect the
requested charts and their per-ItemID deleted orders, drop every record
whose ID is requested, then recompute the surviving orders scope by scope,
all persisted in a single records_to_sheet call. -/
def batch_delete_chord_charts (records : List Rcd) (chordIds : List String) :
    Option (List Rcd) :=
  match collectDeletes records chordIds ([], []) with
  | none => none
  | some (_, affected) => applyScopes affected (records.filter (survives chordIds))

/-- The cumulative per-record effect of a list of scopes. -/
def stepScopes : List (Option String × List Int) → Rcd → Option Rcd
  | [], r => some r
  | (b, ds) :: rest, r => (stepScope (sortInts ds) b r).bind (stepScopes rest)

theorem adjustBatch_eq_mapOpt (ds : List Int) (b : Option String) :
    ∀ l : List Rcd, adjustBatch ds b l = mapOpt (stepScope ds b) l := by
  intro l
  induction l with
  | nil => rfl
  | cons r rs ih =>
    by_cases hb : (Rcd.find r 'B' == b) = true
    · cases ho : getF0 r with
      | none => simp [adjustBatch, mapOpt, stepScope, hb, ho]
      | some o => simp [adjustBatch, mapOpt, stepScope, hb, ho, ih]
    · simp [adjustBatch, mapOpt, stepScope, hb, ih]

theorem applyScopes_eq :
    ∀ (scopes : List (Option String × List Int)) (l : List Rcd),
      applyScopes scopes l = mapOpt (stepScopes scopes) l := by
  intro scopes
  induction scopes with
  | nil =>
    intro l
    have hid : mapOpt (stepScopes []) l = some l := by
      rw [mapOpt_congr (stepScopes []) (fun a => some a) l (fun a _ => rfl), mapOpt_some_id]
    rw [hid]
    rfl
  | cons s rest ih =>
    intro l
    obtain ⟨b, ds⟩ := s
    have h1 : mapOpt (stepScopes ((b, ds) :: rest)) l =
        (mapOpt (stepScope (sortInts ds) b) l).bind (mapOpt (stepScopes rest)) := by
      rw [← mapOpt_bind]
      apply mapOpt_congr
      intro a _
      rfl
    rw [h1]
    show (match adjustBatch (sortInts ds) b l with
      | none => none
      | some l2 => applyScopes rest l2) =
      (mapOpt (stepScope (sortInts ds) b) l).bind (mapOpt (stepScopes rest))
    rw [adjustBatch_eq_mapOpt]
    cases hs : mapOpt (stepScope (sortInts ds) b) l with
    | none => rfl
    | some l2 => exact ih l2

/-- Keys of the items_affected dict, in insertion order. -/
def keysOf (m : List (Option String × List Int)) : List (Option String) := m.map Prod.fst

/-- Entry of the items_affected dict (empty when the key is absent). -/
def entryOf (m : List (Option String × List Int)) (b : Option String) : List Int :=
  ((m.find? (fun p => p.1 == b)).map Prod.snd).getD []

theorem countP_sortInts (l : List Int) (p : Int → Bool) :
    (sortInts l).countP p = l.countP p :=
  (List.perm_insertionSort (fun a b => a ≤ b) l).countP_eq p

theorem stepScope_preserves (ds : List Int) (b : Option String) (r r2 : Rcd)
    (h : stepScope ds b r = some r2) (c : Char) (hc : c ≠ 'F') :
    Rcd.find r2 c = Rcd.find r c := by
  unfold stepScope at h
  by_cases hb : (Rcd.find r 'B' == b) = true
  · rw [if_pos hb] at h
    cases ho : getF0 r with
    | none => rw [ho] at h; exact Option.noConfusion h
    | some o =>
      rw [ho] at h
      have h2 : some (if 0 < ds.countP (fun d => decide (d < o)) then
          Rcd.set r 'F' (toString (o - ((ds.countP (fun d => decide (d < o)) : Nat) : Int)))
          else r) = some r2 := h
      obtain rfl := Option.some.inj h2
      by_cases hcnt : 0 < ds.countP (fun d => decide (d < o))
      · rw [if_pos hcnt]
        exact Rcd.find_set_other r 'F' c _ hc
      · rw [if_neg hcnt]
  · rw [if_neg hb] at h
    obtain rfl := Option.some.inj h
    rfl

theorem stepScope_preserves_B (ds : List Int) (b : Option String) (r r2 : Rcd)
    (h : stepScope ds b r = some r2) : Rcd.find r2 'B' = Rcd.find r 'B' :=
  stepScope_preserves ds b r r2 h 'B' (by decide)

theorem stepScopes_not_mem :
    ∀ (scopes : List (Option String × List Int)) (r : Rcd),
      Rcd.find r 'B' ∉ keysOf scopes → stepScopes scopes r = some r := by
  intro scopes
  induction scopes with
  | nil => intro r _; rfl
  | cons s rest ih =>
    intro r h
    obtain ⟨b, ds⟩ := s
    have hb : (Rcd.find r 'B' == b) = false := by
      rw [beq_eq_false_iff_ne]
      intro he
      exact h (by simp [keysOf, he])
    show (stepScope (sortInts ds) b r).bind (stepScopes rest) = some r
    unfold stepScope
    rw [if_neg (by simp [hb])]
    exact ih r (fun hm => h (List.mem_cons_of_mem _ hm))

theorem stepScopes_preserves :
    ∀ (scopes : List (Option String × List Int)) (r r2 : Rcd),
      stepScopes scopes r = some r2 →
      ∀ c, c ≠ 'F' → Rcd.find r2 c = Rcd.find r c := by
  intro scopes
  induction scopes with
  | nil =>
    intro r r2 h c _
    obtain rfl := Option.some.inj h
    rfl
  | cons s rest ih =>
    intro r r2 h c hc
    obtain ⟨b, ds⟩ := s
    have h2 : (stepScope (sortInts ds) b r).bind (stepScopes rest) = some r2 := h
    cases hs : stepScope (sortInts ds) b r with
    | none => rw [hs] at h2; exact Option.noConfusion h2
    | some rmid =>
      rw [hs] at h2
      have h3 : stepScopes rest rmid = some r2 := h2
      rw [ih rmid r2 h3 c hc, stepScope_preserves _ _ _ _ hs c hc]

theorem stepScopes_apply (b : Option String) (ds : List Int) :
    ∀ (scopes : List (Option String × List Int)) (r : Rcd),
      (keysOf scopes).Nodup → (b, ds) ∈ scopes → Rcd.find r 'B' = b →
      stepScopes scopes r = stepScope (sortInts ds) b r := by
  intro scopes
  induction scopes with
  | nil => intro r _ hmem _; simp at hmem
  | cons s rest ih =>
    intro r hnodup hmem hB
    obtain ⟨b0, ds0⟩ := s
    have hnd := List.nodup_cons.mp (show (b0 :: keysOf rest).Nodup from hnodup)
    rcases List.mem_cons.mp hmem with heq | hmem2
    · obtain ⟨rfl, rfl⟩ := Prod.mk.inj heq
      show (stepScope (sortInts ds) b r).bind (stepScopes rest) = stepScope (sortInts ds) b r
      cases hs : stepScope (sortInts ds) b r with
      | none => rfl
      | some r2 =>
        show stepScopes rest r2 = some r2
        apply stepScopes_not_mem
        rw [stepScope_preserves_B _ _ _ _ hs, hB]
        exact hnd.1
    · have hbmem : b ∈ keysOf rest := List.mem_map.mpr ⟨(b, ds), hmem2, rfl⟩
      have hne : Rcd.find r 'B' ≠ b0 := by
        rw [hB]
        intro he
        exact hnd.1 (he ▸ hbmem)
      have hbeq : (Rcd.find r 'B' == b0) = false := beq_eq_false_iff_ne.mpr hne
      show (stepScope (sortInts ds0) b0 r).bind (stepScopes rest) = stepScope (sortInts ds) b r
      have hstep : stepScope (sortInts ds0) b0 r = some r := by
        unfold stepScope
        rw [if_neg (by simp [hbeq])]
      rw [hstep]
      show stepScopes rest r = stepScope (sortInts ds) b r
      exact ih r hnd.2 hmem2 hB

theorem stepScope_order (ds : List Int) (b : Option String) (r r2 : Rcd) (o : Int)
    (hb : (Rcd.find r 'B' == b) = true) (ho : getF0 r = some o)
    (h : stepScope ds b r = some r2) :
    getF0 r2 = some (o - ((ds.countP (fun d => decide (d < o)) : Nat) : Int)) := by
  unfold stepScope at h
  rw [if_pos hb, ho] at h
  have h2 : some (if 0 < ds.countP (fun d => decide (d < o)) then
      Rcd.set r 'F' (toString (o - ((ds.countP (fun d => decide (d < o)) : Nat) : Int)))
      else r) = some r2 := h
  obtain rfl := Option.some.inj h2
  by_cases hcnt : 0 < ds.countP (fun d => decide (d < o))
  · rw [if_pos hcnt]
    unfold getF0
    rw [Rcd.find_set_same]
    exact parseNum_intToString _
  · rw [if_neg hcnt]
    have hz : ds.countP (fun d => decide (d < o)) = 0 := Nat.eq_zero_of_not_pos hcnt
    rw [ho, hz]
    simp

theorem entryOf_not_mem (m : List (Option String × List Int)) (b : Option String)
    (h : b ∉ keysOf m) : entryOf m b = [] := by
  unfold entryOf
  have hf : m.find? (fun p => p.1 == b) = none := by
    rw [List.find?_eq_none]
    intro x hx hpx
    exact h (List.mem_map.mpr ⟨x, hx, eq_of_beq hpx⟩)
  rw [hf]
  rfl

theorem entryOf_mem_nodup :
    ∀ (m : List (Option String × List Int)) (b : Option String) (ds : List Int),
      (keysOf m).Nodup → (b, ds) ∈ m → entryOf m b = ds := by
  intro m
  induction m with
  | nil => intro b ds _ hmem; simp at hmem
  | cons p ps ih =>
    intro b ds hnodup hmem
    obtain ⟨b0, ds0⟩ := p
    have hnd := List.nodup_cons.mp (show (b0 :: keysOf ps).Nodup from hnodup)
    rcases List.mem_cons.mp hmem with heq | hmem2
    · obtain ⟨rfl, rfl⟩ := Prod.mk.inj heq
      unfold entryOf
      rw [List.find?_cons_of_pos _ (by simp)]
      rfl
    · have hbmem : b ∈ keysOf ps := List.mem_map.mpr ⟨(b, ds), hmem2, rfl⟩
      have hne : (b0 == b) = false := by
        rw [beq_eq_false_iff_ne]
        intro he
        exact hnd.1 (he ▸ hbmem)
      unfold entryOf
      rw [List.find?_cons_of_neg _ (by simp [hne])]
      exact ih b ds hnd.2 hmem2

theorem nodup_keys_addAffected (m : List (Option String × List Int)) (b : Option String)
    (o : Int) (h : (keysOf m).Nodup) : (keysOf (addAffected m b o)).Nodup := by
  unfold addAffected
  by_cases hmem : m.any (fun p => p.1 == b) = true
  · rw [if_pos hmem]
    have hkeys : keysOf (m.map (fun p => if p.1 == b then (p.1, p.2 ++ [o]) else p)) =
        keysOf m := by
      unfold keysOf
      rw [List.map_map]
      apply List.map_congr_left
      intro p _
      by_cases hp : p.1 = b <;> simp [hp]
    rw [hkeys]
    exact h
  · rw [if_neg hmem]
    have hb : b ∉ keysOf m := by
      intro hbm
      obtain ⟨p, hp, hfst⟩ := List.mem_map.mp hbm
      exact hmem (List.any_eq_true.mpr ⟨p, hp, by simp [hfst]⟩)
    show (keysOf (m ++ [(b, [o])])).Nodup
    unfold keysOf
    rw [List.map_append, List.nodup_append]
    refine ⟨h, List.nodup_singleton b, ?_⟩
    intro x hx hx2
    simp only [List.map_cons, List.map_nil, List.mem_singleton] at hx2
    subst hx2
    exact hb hx

theorem entryOf_addAffected_same (m : List (Option String × List Int)) (b : Option String)
    (o : Int) : entryOf (addAffected m b o) b = entryOf m b ++ [o] := by
  unfold addAffected
  by_cases hmem : m.any (fun p => p.1 == b) = true
  · rw [if_pos hmem]
    have hmap : ∀ l : List (Option String × List Int), l.any (fun p => p.1 == b) = true →
        (l.map (fun p => if p.1 == b then (p.1, p.2 ++ [o]) else p)).find?
          (fun p => p.1 == b) =
        (l.find? (fun p => p.1 == b)).map (fun q => (q.1, q.2 ++ [o])) := by
      intro l
      induction l with
      | nil => intro hl; simp at hl
      | cons p ps ih =>
        intro hl
        by_cases hp : (p.1 == b) = true
        · simp only [List.map_cons, if_pos hp]
          rw [List.find?_cons_of_pos _ (by simpa using hp),
            List.find?_cons_of_pos _ (by simpa using hp)]
          rfl
        · have hp' : (p.1 == b) = false := by simpa using hp
          have hps : ps.any (fun q => q.1 == b) = true := by
            simp only [List.any_cons, hp', Bool.false_or] at hl
            exact hl
          simp only [List.map_cons, if_neg hp]
          rw [List.find?_cons_of_neg _ (by simpa using hp),
            List.find?_cons_of_neg _ (by simpa using hp)]
          exact ih hps
    unfold entryOf
    rw [hmap m hmem]
    cases hf : m.find? (fun p => p.1 == b) with
    | none =>
      exfalso
      obtain ⟨x, hx, hpx⟩ := List.any_eq_true.mp hmem
      rw [List.find?_eq_none] at hf
      exact hf x hx hpx
    | some q => rfl
  · rw [if_neg hmem]
    have hall : ∀ x ∈ m, (x.1 == b) = false := by
      intro x hx
      by_contra hx2
      exact hmem (List.any_eq_true.mpr ⟨x, hx, by simpa using hx2⟩)
    have hfind : m.find? (fun p => p.1 == b) = none := by
      rw [List.find?_eq_none]
      intro x hx hpx
      rw [hall x hx] at hpx
      exact Bool.noConfusion hpx
    have happ : ∀ l : List (Option String × List Int), (∀ x ∈ l, (x.1 == b) = false) →
        (l ++ [(b, [o])]).find? (fun p => p.1 == b) = some (b, [o]) := by
      intro l
      induction l with
      | nil =>
        intro _
        rw [List.nil_append]
        exact List.find?_cons_of_pos _ (by simp)
      | cons p ps ih =>
        intro hl
        rw [List.cons_append,
          List.find?_cons_of_neg _ (by simp [hl p (List.mem_cons_self p ps)])]
        exact ih (fun x hx => hl x (List.mem_cons_of_mem p hx))
    unfold entryOf
    rw [happ m hall, hfind]
    rfl

theorem entryOf_addAffected_other (m : List (Option String × List Int))
    (b : Option String) (o : Int) (b' : Option String) (hne : b' ≠ b) :
    entryOf (addAffected m b o) b' = entryOf m b' := by
  have hbb : ((b, [o]).1 == b') = false := by
    rw [beq_eq_false_iff_ne]
    exact fun he => hne he.symm
  unfold addAffected
  by_cases hmem : m.any (fun p => p.1 == b) = true
  · rw [if_pos hmem]
    have hmap : ∀ l : List (Option String × List Int),
        (l.map (fun p => if p.1 == b then (p.1, p.2 ++ [o]) else p)).find?
          (fun p => p.1 == b') =
        l.find? (fun p => p.1 == b') := by
      intro l
      induction l with
      | nil => rfl
      | cons p ps ih =>
        simp only [List.map_cons]
        by_cases hp : (p.1 == b) = true
        · have hq : (p.1 == b') = false := by
            rw [eq_of_beq hp, beq_eq_false_iff_ne]
            exact fun he => hne he.symm
          rw [if_pos hp, List.find?_cons_of_neg _ (by simpa using hq),
            List.find?_cons_of_neg _ (by simpa using hq)]
          exact ih
        · rw [if_neg hp]
          by_cases hq : (p.1 == b') = true
          · rw [List.find?_cons_of_pos _ (by simpa using hq),
              List.find?_cons_of_pos _ (by simpa using hq)]
          · rw [List.find?_cons_of_neg _ (by simpa using hq),
              List.find?_cons_of_neg _ (by simpa using hq)]
            exact ih
    unfold entryOf
    rw [hmap m]
  · rw [if_neg hmem]
    have hgen : ∀ l : List (Option String × List Int),
        (l ++ [(b, [o])]).find? (fun p => p.1 == b') = l.find? (fun p => p.1 == b') := by
      intro l
      induction l with
      | nil =>
        rw [List.nil_append, List.find?_cons_of_neg _ (by simpa using hbb)]
      | cons p ps ih =>
        rw [List.cons_append]
        by_cases hq : (p.1 == b') = true
        · rw [List.find?_cons_of_pos _ (by simpa using hq),
            List.find?_cons_of_pos _ (by simpa using hq)]
        · rw [List.find?_cons_of_neg _ (by simpa using hq),
            List.find?_cons_of_neg _ (by simpa using hq)]
          exact ih
    unfold entryOf
    rw [hgen m]

theorem survives_find (chordIds : List String) (r : Rcd) (a : String)
    (ha : Rcd.find r 'A' = some a) (hs : survives chordIds r = true) : a ∉ chordIds := by
  unfold survives at hs
  rw [ha] at hs
  have hs2 : (!(decide (a ∈ chordIds))) = true := hs
  simpa using hs2

theorem collectDeletes_invariant (records : List Rcd) :
    ∀ (cids : List String) (accC : List Rcd) (accA : List (Option String × List Int))
      (charts : List Rcd) (aff : List (Option String × List Int)),
      collectDeletes records cids (accC, accA) = some (charts, aff) →
      (keysOf accA).Nodup →
      (∀ b, mapOpt getF0 (accC.filter (fun ch => Rcd.find ch 'B' == b)) =
        some (entryOf accA b)) →
      (keysOf aff).Nodup ∧
      (∀ b, mapOpt getF0 (charts.filter (fun ch => Rcd.find ch 'B' == b)) =
        some (entryOf aff b)) := by
  intro cids
  induction cids with
  | nil =>
    intro accC accA charts aff h hnodup hinv
    simp only [collectDeletes, Option.some.injEq] at h
    obtain ⟨h1, h2⟩ := Prod.mk.inj h
    subst h1
    subst h2
    exact ⟨hnodup, hinv⟩
  | cons cid rest ih =>
    intro accC accA charts aff h hnodup hinv
    cases hf : records.find? (fun r => Rcd.find r 'A' == some cid) with
    | none =>
      have hstep : collectDeletes records (cid :: rest) (accC, accA) =
          collectDeletes records rest (accC, accA) := by
        simp [collectDeletes, hf]
      rw [hstep] at h
      exact ih accC accA charts aff h hnodup hinv
    | some chart =>
      cases ho : getF0 chart with
      | none =>
        have hstep : collectDeletes records (cid :: rest) (accC, accA) = none := by
          simp [collectDeletes, hf, ho]
        rw [hstep] at h
        exact Option.noConfusion h
      | some o =>
        have hstep : collectDeletes records (cid :: rest) (accC, accA) =
            collectDeletes records rest
              (accC ++ [chart], addAffected accA (Rcd.find chart 'B') o) := by
          simp [collectDeletes, hf, ho]
        rw [hstep] at h
        apply ih _ _ charts aff h
        · exact nodup_keys_addAffected _ _ _ hnodup
        · intro b
          rw [List.filter_append, mapOpt_append, hinv b]
          by_cases hb : (Rcd.find chart 'B' == b) = true
          · have hfil : [chart].filter (fun ch => Rcd.find ch 'B' == b) = [chart] := by
              simp [List.filter, hb]
            rw [hfil]
            have hone : mapOpt getF0 [chart] = some [o] := by simp [mapOpt, ho]
            rw [hone]
            have heq : entryOf (addAffected accA (Rcd.find chart 'B') o) b =
                entryOf accA b ++ [o] := by
              rw [← eq_of_beq hb]
              exact entryOf_addAffected_same accA (Rcd.find chart 'B') o
            simp [heq]
          · have hb' : (Rcd.find chart 'B' == b) = false := by simpa using hb
            have hfil : [chart].filter (fun ch => Rcd.find ch 'B' == b) = [] := by
              simp [List.filter, hb']
            rw [hfil]
            have heq : entryOf (addAffected accA (Rcd.find chart 'B') o) b =
                entryOf accA b := by
              apply entryOf_addAffected_other
              intro he
              rw [he] at hb'
              simp at hb'
            simp [mapOpt, heq]

/-- C8: batch_delete_chord_charts removes all requested chord charts in one
read-modify-write cycle — no surviving record carries a requested ID — and,
for every surviving chart with a parseable order o, the persisted order
equals o minus the number of deleted orders in the same ItemID scope that
were numerically below o, all other fields unchanged. -/
theorem C8_batch_delete_orders (records : List Rcd) (chordIds : List String)
    (charts : List Rcd) (affected : List (Option String × List Int)) (out : List Rcd)
    (hcol : collectDeletes records chordIds ([], []) = some (charts, affected))
    (hrun : batch_delete_chord_charts records chordIds = some out) :
    out.length = (records.filter (survives chordIds)).length ∧
    ∀ i (h1 : i < (records.filter (survives chordIds)).length) (h2 : i < out.length),
      (∀ a, Rcd.find out[i] 'A' = some a → a ∉ chordIds) ∧
      (∀ c, c ≠ 'F' →
        Rcd.find out[i] c = Rcd.find (records.filter (survives chordIds))[i] c) ∧
      (∀ o ds, getF0 (records.filter (survives chordIds))[i] = some o →
        mapOpt getF0 (charts.filter (fun ch =>
          Rcd.find ch 'B' == Rcd.find (records.filter (survives chordIds))[i] 'B')) =
          some ds →
        getF0 out[i] = some (o - ((ds.countP (fun d => decide (d < o)) : Nat) : Int))) := by
  have hinv := collectDeletes_invariant records chordIds [] [] charts affected hcol
    (by simp [keysOf]) (fun b => rfl)
  simp only [batch_delete_chord_charts, hcol] at hrun
  rw [applyScopes_eq] at hrun
  obtain ⟨hlen, hpt⟩ := mapOpt_spec (stepScopes affected) _ out hrun
  refine ⟨hlen, ?_⟩
  intro i h1 h2
  have hstep := hpt i h1 h2
  have hpres : ∀ c, c ≠ 'F' →
      Rcd.find out[i] c = Rcd.find (records.filter (survives chordIds))[i] c :=
    fun c hc => stepScopes_preserves affected _ _ hstep c hc
  refine ⟨?_, hpres, ?_⟩
  · intro a ha
    rw [hpres 'A' (by decide)] at ha
    have hmem : (records.filter (survives chordIds))[i] ∈ records.filter (survives chordIds) :=
      List.getElem_mem h1
    exact survives_find chordIds _ a ha (List.mem_filter.mp hmem).2
  · intro o ds ho hds
    have hentry := hinv.2 (Rcd.find (records.filter (survives chordIds))[i] 'B')
    rw [hds] at hentry
    have hdse : ds = entryOf affected (Rcd.find (records.filter (survives chordIds))[i] 'B') :=
      Option.some.inj hentry
    by_cases hmemk :
        Rcd.find (records.filter (survives chordIds))[i] 'B' ∈ keysOf affected
    · obtain ⟨p, hp, hfst⟩ := List.mem_map.mp hmemk
      obtain ⟨bp, dsp⟩ := p
      have hentry2 : entryOf affected (Rcd.find (records.filter (survives chordIds))[i] 'B') =
          dsp := by
        rw [← hfst]
        exact entryOf_mem_nodup affected bp dsp hinv.1 hp
      have happly : stepScopes affected (records.filter (survives chordIds))[i] =
          stepScope (sortInts dsp) bp (records.filter (survives chordIds))[i] :=
        stepScopes_apply bp dsp affected _ hinv.1 hp hfst.symm
      rw [happly] at hstep
      have hord := stepScope_order (sortInts dsp) bp _ _ o
        (by rw [← hfst]; simp) ho hstep
      rw [countP_sortInts] at hord
      rw [hdse, hentry2]
      exact hord
    · rw [stepScopes_not_mem affected _ hmemk] at hstep
      have heqr := Option.some.inj hstep
      rw [hdse, entryOf_not_mem affected _ hmemk]
      rw [← heqr, ho]
      simp

/-- Witness for C8 on the claim's example: an item (ItemID "9") with charts
at orders 0..3; batch-deleting the charts at orders 1 and 3 leaves the
survivor that held order 2 at order 1 (and the order-0 survivor untouched),
i.e. survivors at orders 0 and 1. -/
theorem C8_batch_delete_orders_witness :
    getF0 (([[('A', "c1"), ('B', "9"), ('F', "0")],
      [('A', "c3"), ('B', "9"), ('F', "1")]] : List Rcd).get ⟨1, by decide⟩) = some 1 := by
  have h := (C8_batch_delete_orders
    [[('A', "c1"), ('B', "9"), ('F', "0")], [('A', "c2"), ('B', "9"), ('F', "1")],
     [('A', "c3"), ('B', "9"), ('F', "2")], [('A', "c4"), ('B', "9"), ('F', "3")]]
    ["c2", "c4"]
    [[('A', "c2"), ('B', "9"), ('F', "1")], [('A', "c4"), ('B', "9"), ('F', "3")]]
    [(some "9", [1, 3])]
    [[('A', "c1"), ('B', "9"), ('F', "0")], [('A', "c3"), ('B', "9"), ('F', "1")]]
    (by decide) (by decide)).2 1 (by decide) (by decide)
  have h2 := h.2.2 2 [1, 3] (by decide) (by decide)
  have hc : (([1, 3] : List Int).countP (fun d => decide (d < (2 : Int)))) = 1 := by decide
  rw [hc] at h2
  have hval : (2 : Int) - ((1 : Nat) : Int) = 1 := by norm_num
  rw [hval] at h2
  simpa [List.get_eq_getElem] using h2

/-- C9: records_to_sheet with an empty record list returns True and performs
no write at all; every cell of the worksheet, including previously existing
data rows, is left unchanged.  The full-overwrite and trailing-row-blanking
behaviour applies only to non-empty record lists. -/
theorem C9_empty_write_noop (grid : Grid) (k : Kind) :
    records_to_sheet grid [] k = (grid, true) := by
  simp [records_to_sheet]

end GPR
